import Mathlib

/-
  Verification development for the OpenAPI fetcher extension.

  The definitions below are a shallow embedding of the TypeScript sources:
    - src/lib/curl-generator.ts   (generateCurl, generateExampleBody,
                                   getDefaultValue, generateCompactCurl)
    - src/lib/openapi-parser.ts   (parseEndpoints, parseOperation, the
                                   parameter filters, getRequestBodyContentType)
    - src/lib/storage.ts          (maskSensitiveHeaders)
    - src/types/openapi.ts        (the data model)

  Modelling conventions:
    - JS `Record<string, T>` objects that are iterated are modelled as
      association lists in insertion order (JS objects preserve insertion
      order for non-integer string keys); `paramValues`, which is only ever
      indexed, is modelled as a function `String → Option String`.
    - JS string truthiness (`if (value)`) is modelled by `truthyOpt`,
      which maps the empty string to `none`.
    - Optional booleans used truthily are modelled as `Bool`
      (undefined ↦ false).
    - Characters are unicode scalar values; JSON numbers that appear in
      schema examples are modelled as integers (their serialisation
      matches the JS one on integers).
-/

namespace OpenApiFetcher

/-- JSON values, as they appear in schema `example` / `default` fields. -/
inductive JValue where
  | jnull : JValue
  | jbool (b : Bool) : JValue
  | jnum (n : Int) : JValue
  | jstr (s : String) : JValue
  | jarr (xs : List JValue) : JValue
  | jobj (fields : List (String × JValue)) : JValue

/-- `Schema` from src/types/openapi.ts (the dereferenced form: the `$ref`,
`allOf`, `oneOf`, `anyOf` compatibility fields are resolved away). -/
inductive Schema where
  | mk
    (type : Option String)
    (format : Option String)
    (items : Option Schema)
    (properties : Option (List (String × Schema)))
    (required : Option (List String))
    (enum : Option (List JValue))
    (default : Option JValue)
    (exampleVal : Option JValue)
    (description : Option String) : Schema

def Schema.type : Schema → Option String
  | .mk t _ _ _ _ _ _ _ _ => t

def Schema.format : Schema → Option String
  | .mk _ f _ _ _ _ _ _ _ => f

def Schema.items : Schema → Option Schema
  | .mk _ _ i _ _ _ _ _ _ => i

def Schema.properties : Schema → Option (List (String × Schema))
  | .mk _ _ _ p _ _ _ _ _ => p

def Schema.requiredFields : Schema → Option (List String)
  | .mk _ _ _ _ r _ _ _ _ => r

def Schema.enumVals : Schema → Option (List JValue)
  | .mk _ _ _ _ _ e _ _ _ => e

def Schema.default : Schema → Option JValue
  | .mk _ _ _ _ _ _ d _ _ => d

def Schema.exampleVal : Schema → Option JValue
  | .mk _ _ _ _ _ _ _ e _ => e

/-- `MediaType` from src/types/openapi.ts. -/
structure MediaType where
  schema : Option Schema
  exampleVal : Option JValue

/-- `RequestBody` from src/types/openapi.ts; `content` is a MIME-type keyed
record, kept in insertion order. -/
structure RequestBody where
  description : Option String
  required : Bool
  content : Option (List (String × MediaType))

/-- `Parameter` from src/types/openapi.ts.  The source field `in` is a
reserved word in Lean and is called `inLoc` here; its values are the
literal strings "query" | "path" | "header" | "cookie". -/
structure Parameter where
  name : String
  inLoc : String
  description : Option String
  required : Bool
  schema : Option Schema

/-- One entry of an `Operation.security` array; the contents are never
inspected, only the array length. -/
def SecurityRequirement := List (String × List String)

/-- `Operation` from src/types/openapi.ts (the `responses` field is not
consumed by any of the functions modelled here and is omitted). -/
structure Operation where
  operationId : Option String
  summary : Option String
  description : Option String
  tags : Option (List String)
  parameters : Option (List Parameter)
  requestBody : Option RequestBody
  security : Option (List SecurityRequirement)

/-- `PathItem` from src/types/openapi.ts. -/
structure PathItem where
  get : Option Operation
  post : Option Operation
  put : Option Operation
  patch : Option Operation
  delete : Option Operation
  options : Option Operation
  head : Option Operation

/-- `OpenAPISpec` from src/types/openapi.ts (`info`, `servers` and
`components` are not consumed by `parseEndpoints` and are omitted;
`paths` is a path-template keyed record in insertion order). -/
structure OpenAPISpec where
  openapi : Option String
  swagger : Option String
  paths : Option (List (String × PathItem))

/-- `HttpMethod` from src/types/openapi.ts. -/
inductive HttpMethod where
  | GET | POST | PUT | PATCH | DELETE | OPTIONS | HEAD
deriving DecidableEq

/-- The uppercase verb string of a method. -/
def methodStr : HttpMethod → String
  | .GET => "GET"
  | .POST => "POST"
  | .PUT => "PUT"
  | .PATCH => "PATCH"
  | .DELETE => "DELETE"
  | .OPTIONS => "OPTIONS"
  | .HEAD => "HEAD"

/-- `ParsedEndpoint` from src/types/openapi.ts. -/
structure ParsedEndpoint where
  path : String
  method : HttpMethod
  operationId : Option String
  summary : Option String
  description : Option String
  tags : List String
  parameters : List Parameter
  requestBody : Option RequestBody
  hasAuth : Bool

/-- `authType` values of `CurlOptions` (src/lib/curl-generator.ts):
"bearer" | "api-key" | "basic". -/
inductive AuthType where
  | bearer | apiKey | basic
deriving DecidableEq

/-- `CurlOptions` from src/lib/curl-generator.ts.  `paramValues` is a
string-keyed record only ever read by key, modelled as a function. -/
structure CurlOptions where
  baseUrl : String
  authToken : Option String
  authType : Option AuthType
  authHeader : Option String
  includeExampleBody : Bool
  paramValues : String → Option String
  bodyJson : Option String

/-- JS string truthiness on an optional string: `undefined` and the empty
string are falsy. -/
def truthyOpt : Option String → Option String
  | some s => if s = "" then none else some s
  | none => none

/- ## Parameter filters (src/lib/openapi-parser.ts) -/

/-- `getPathParams` (openapi-parser.ts line 120). -/
def getPathParams (endpoint : ParsedEndpoint) : List Parameter :=
  endpoint.parameters.filter (fun p => p.inLoc == "path")

/-- `getQueryParams` (openapi-parser.ts line 127). -/
def getQueryParams (endpoint : ParsedEndpoint) : List Parameter :=
  endpoint.parameters.filter (fun p => p.inLoc == "query")

/-- `getHeaderParams` (openapi-parser.ts line 134). -/
def getHeaderParams (endpoint : ParsedEndpoint) : List Parameter :=
  endpoint.parameters.filter (fun p => p.inLoc == "header")

/- ## encodeURIComponent -/

/-- The characters `encodeURIComponent` leaves unescaped. -/
def isUnreservedChar (c : Char) : Bool :=
  c.isAlphanum || c == '-' || c == '_' || c == '.' || c == '!' ||
  c == '~' || c == '*' || c == '\'' || c == '(' || c == ')'

/-- Uppercase hex digit for a value below 16. -/
def hexDigitChar (n : Nat) : Char :=
  "0123456789ABCDEF".data.getD n '0'

/-- UTF-8 bytes of a unicode scalar value. -/
def utf8Bytes (n : Nat) : List Nat :=
  if n < 0x80 then [n]
  else if n < 0x800 then
    [0xC0 ||| (n >>> 6), 0x80 ||| (n &&& 0x3F)]
  else if n < 0x10000 then
    [0xE0 ||| (n >>> 12), 0x80 ||| ((n >>> 6) &&& 0x3F), 0x80 ||| (n &&& 0x3F)]
  else
    [0xF0 ||| (n >>> 18), 0x80 ||| ((n >>> 12) &&& 0x3F),
     0x80 ||| ((n >>> 6) &&& 0x3F), 0x80 ||| (n &&& 0x3F)]

/-- Percent-encoding of one byte, uppercase hex as in JS. -/
def pctByte (b : Nat) : List Char :=
  ['%', hexDigitChar (b / 16), hexDigitChar (b % 16)]

/-- JS `encodeURIComponent` on the characters of a string. -/
def encodeURIChars (cs : List Char) : List Char :=
  cs.flatMap (fun c =>
    if isUnreservedChar c then [c] else (utf8Bytes c.toNat).flatMap pctByte)

/-- JS `encodeURIComponent`. -/
def encodeURIComponent (s : String) : String :=
  ⟨encodeURIChars s.data⟩

/- ## First-occurrence string replacement (JS String.replace with a string
pattern).  The replacement values produced by `encodeURIComponent` never
contain `$`, so the JS `$`-substitution rules never fire. -/

/-- Does `p` occur as a prefix of `s`? -/
def startsWithL : List Char → List Char → Bool
  | [], _ => true
  | _ :: _, [] => false
  | p :: ps, c :: cs => p == c && startsWithL ps cs

/-- Replace the first occurrence of `pat` in `s` by `r` (no-op when `pat`
does not occur); `pat` is assumed nonempty, as everywhere in the source. -/
def replFirst : List Char → List Char → List Char → List Char
  | [], _, _ => []
  | c :: cs, pat, r =>
    if startsWithL pat (c :: cs) then r ++ (c :: cs).drop pat.length
    else c :: replFirst cs pat r

/-- Substring test (JS `String.includes`). -/
def infixL (pat : List Char) : List Char → Bool
  | [] => pat.isEmpty
  | c :: cs => startsWithL pat (c :: cs) || infixL pat cs

/-- The `\x7bname\x7d` placeholder string of a parameter name. -/
def placeholderOf (n : String) : List Char :=
  '\x7b' :: n.data ++ ['\x7d']

/- ## URL construction inside generateCurl (curl-generator.ts lines 27-53) -/

/-- The path-parameter substitution loop of `generateCurl`
(curl-generator.ts lines 29-37): for each path parameter, a truthy
supplied value is URL-encoded and substituted for the first occurrence of
its placeholder; otherwise the placeholder is replaced by itself. -/
def substPathParams (pv : String → Option String) :
    List Parameter → List Char → List Char
  | [], url => url
  | p :: rest, url =>
    let url' :=
      match truthyOpt (pv p.name) with
      | some v => replFirst url (placeholderOf p.name) (encodeURIChars v.data)
      | none => replFirst url (placeholderOf p.name) (placeholderOf p.name)
    substPathParams pv rest url'

/-- The URL after path-parameter substitution: the loop applied to
`baseUrl + endpoint.path`. -/
def urlAfterPath (endpoint : ParsedEndpoint) (o : CurlOptions) : String :=
  ⟨substPathParams o.paramValues (getPathParams endpoint)
    (o.baseUrl ++ endpoint.path).data⟩

/-- `Array.prototype.join` with a separator. -/
def joinL (sep : String) : List String → String
  | [] => ""
  | [x] => x
  | x :: y :: rest => x ++ sep ++ joinL sep (y :: rest)

/-- The query-string accumulation loop of `generateCurl`
(curl-generator.ts lines 41-50), as a push loop on an accumulator. -/
def queryPartsLoop (pv : String → Option String) :
    List Parameter → List String → List String
  | [], acc => acc
  | p :: rest, acc =>
    let pushed :=
      match truthyOpt (pv p.name) with
      | some v => [p.name ++ "=" ++ encodeURIComponent v]
      | none =>
        if p.required then [p.name ++ "=" ++ String.mk (placeholderOf p.name)]
        else []
    queryPartsLoop pv rest (acc ++ pushed)

/-- The `queryParts` array of `generateCurl` after the loop. -/
def queryParts (endpoint : ParsedEndpoint) (o : CurlOptions) : List String :=
  queryPartsLoop o.paramValues (getQueryParams endpoint) []

/-- The final URL of `generateCurl` (curl-generator.ts lines 51-53): the
query string is appended after `?` only when at least one segment exists. -/
def urlWithQuery (endpoint : ParsedEndpoint) (o : CurlOptions) : String :=
  match queryParts endpoint o with
  | [] => urlAfterPath endpoint o
  | q :: qs => urlAfterPath endpoint o ++ "?" ++ joinL "&" (q :: qs)

/- ## Auth, header, body parts of generateCurl -/

/-- The auth-header tokens pushed by `generateCurl`
(curl-generator.ts lines 56-71). -/
def authParts (endpoint : ParsedEndpoint) (o : CurlOptions) : List String :=
  match truthyOpt o.authToken with
  | some t =>
    match o.authType.getD .bearer with
    | .bearer => ["-H \"Authorization: Bearer " ++ t ++ "\""]
    | .apiKey => ["-H \"" ++ o.authHeader.getD "X-API-Key" ++ ": " ++ t ++ "\""]
    | .basic => ["-H \"Authorization: Basic " ++ t ++ "\""]
  | none =>
    if endpoint.hasAuth then ["-H \"Authorization: Bearer <YOUR_TOKEN>\""]
    else []

/-- The custom header-parameter loop of `generateCurl`
(curl-generator.ts lines 74-82). -/
def headerPartsLoop (pv : String → Option String) :
    List Parameter → List String → List String
  | [], acc => acc
  | p :: rest, acc =>
    let pushed :=
      match truthyOpt (pv p.name) with
      | some v => ["-H \"" ++ p.name ++ ": " ++ v ++ "\""]
      | none =>
        if p.required then
          ["-H \"" ++ p.name ++ ": " ++ String.mk (placeholderOf p.name) ++ "\""]
        else []
    headerPartsLoop pv rest (acc ++ pushed)

/-- The header-parameter tokens of `generateCurl`. -/
def headerParamParts (endpoint : ParsedEndpoint) (o : CurlOptions) : List String :=
  headerPartsLoop o.paramValues (getHeaderParams endpoint) []

/- ## getRequestBodyContentType (openapi-parser.ts lines 219-242) -/

/-- The preferred content types, in order (openapi-parser.ts lines 227-232). -/
def preferredTypes : List String :=
  ["application/json", "application/merge-patch+json",
   "application/json-patch+json", "text/json"]

/-- `getRequestBodyContentType` (openapi-parser.ts lines 219-242): the first
preferred content type present among the declared keys, else
`contentTypes[0] || null` — note the JS `||`, which also maps an empty-string
first key to null. -/
def getRequestBodyContentType (endpoint : ParsedEndpoint) : Option String :=
  match endpoint.requestBody with
  | none => none
  | some rb =>
    match rb.content with
    | none => none
    | some content =>
      let contentTypes := content.map (fun kv => kv.1)
      match preferredTypes.find? (fun pt => contentTypes.contains pt) with
      | some pt => some pt
      | none => truthyOpt contentTypes.head?

/- ## Example body generation (curl-generator.ts lines 111-166) -/

/-- `getDefaultValue` (curl-generator.ts lines 146-166). -/
def getDefaultValue (type format : Option String) : JValue :=
  match type with
  | some "string" =>
    if format == some "email" then .jstr "user@example.com"
    else if format == some "date" then .jstr "2024-01-01"
    else if format == some "date-time" then .jstr "2024-01-01T00:00:00Z"
    else if format == some "uuid" then .jstr "00000000-0000-0000-0000-000000000000"
    else .jstr "string"
  | some "number" => .jnum 0
  | some "integer" => .jnum 0
  | some "boolean" => .jbool true
  | some "array" => .jarr []
  | some "object" => .jobj []
  | _ => .jnull

/-- The per-property value choice of `generateExampleBody`
(curl-generator.ts lines 127-135): `example`, else `default`, else the
synthesized default for the property type/format. -/
def exampleFieldValue (prop : Schema) : JValue :=
  match prop.exampleVal with
  | some v => v
  | none =>
    match prop.default with
    | some v => v
    | none => getDefaultValue prop.type prop.format

/-- JSON string escaping as performed by `JSON.stringify`. -/
def jsonEscapeChar (c : Char) : List Char :=
  if c = '"' then ['\\', '"']
  else if c = '\\' then ['\\', '\\']
  else if c = '\n' then ['\\', 'n']
  else if c = '\r' then ['\\', 'r']
  else if c = '\t' then ['\\', 't']
  else if c = '\x08' then ['\\', 'b']
  else if c = '\x0c' then ['\\', 'f']
  else if c.toNat < 0x20 then
    ['\\', 'u', '0', '0', hexDigitChar (c.toNat / 16), hexDigitChar (c.toNat % 16)]
  else [c]

/-- A JSON-quoted string literal. -/
def jsonQuote (s : String) : String :=
  ⟨'"' :: s.data.flatMap jsonEscapeChar ++ ['"']⟩

/-- The indentation produced by `JSON.stringify(v, null, 2)` at nesting
depth `d`. -/
def jIndent (d : Nat) : String :=
  ⟨List.replicate (2 * d) ' '⟩

mutual

/-- `JSON.stringify(v, null, 2)` at nesting depth `d`. -/
def stringifyAt (d : Nat) : JValue → String
  | .jnull => "null"
  | .jbool true => "true"
  | .jbool false => "false"
  | .jnum n => toString n
  | .jstr s => jsonQuote s
  | .jarr [] => "[]"
  | .jarr (x :: xs) =>
    "[\n" ++ joinL ",\n" (stringifyItems (d + 1) (x :: xs)) ++
    "\n" ++ jIndent d ++ "]"
  | .jobj [] => "\x7b\x7d"
  | .jobj (kv :: fs) =>
    "\x7b\n" ++ joinL ",\n" (stringifyFields (d + 1) (kv :: fs)) ++
    "\n" ++ jIndent d ++ "\x7d"

/-- The rendered, indented items of a JSON array. -/
def stringifyItems (d : Nat) : List JValue → List String
  | [] => []
  | x :: xs => (jIndent d ++ stringifyAt d x) :: stringifyItems d xs

/-- The rendered, indented fields of a JSON object. -/
def stringifyFields (d : Nat) : List (String × JValue) → List String
  | [] => []
  | (k, v) :: fs =>
    (jIndent d ++ jsonQuote k ++ ": " ++ stringifyAt d v) :: stringifyFields d fs

end

/-- `JSON.stringify(v, null, 2)`. -/
def stringifyJson (v : JValue) : String :=
  stringifyAt 0 v

/-- `generateExampleBody` (curl-generator.ts lines 111-141). -/
def generateExampleBody (endpoint : ParsedEndpoint) : String :=
  match endpoint.requestBody with
  | none => "\x7b\x7d"
  | some rb =>
    match rb.content with
    | none => "\x7b\x7d"
    | some content =>
      match content.lookup "application/json" with
      | none => "\x7b\x7d"
      | some mt =>
        match mt.schema with
        | none => "\x7b\x7d"
        | some schema =>
          if schema.type == some "object" then
            match schema.properties with
            | some props =>
              stringifyJson (.jobj (props.map (fun kp => (kp.1, exampleFieldValue kp.2))))
            | none => "\x7b\x7d"
          else "\x7b\x7d"

/- ## Body parts of generateCurl (curl-generator.ts lines 85-100) -/

/-- The shell escaping of the custom body
(curl-generator.ts line 92): every single quote becomes the four
characters quote backslash quote quote. -/
def escapeSingleQuotes (s : String) : String :=
  ⟨s.data.flatMap (fun c => if c = '\'' then ['\'', '\\', '\'', '\''] else [c])⟩

/-- The Content-Type and `-d` tokens pushed by `generateCurl`
(curl-generator.ts lines 85-100). -/
def bodyParts (endpoint : ParsedEndpoint) (o : CurlOptions) : List String :=
  match endpoint.requestBody with
  | none => []
  | some _ =>
    if endpoint.method = .POST ∨ endpoint.method = .PUT ∨ endpoint.method = .PATCH then
      let contentType := (truthyOpt (getRequestBodyContentType endpoint)).getD "application/json"
      let dataPart :=
        match truthyOpt o.bodyJson with
        | some body => ["-d '" ++ escapeSingleQuotes body ++ "'"]
        | none =>
          if o.includeExampleBody then ["-d '" ++ generateExampleBody endpoint ++ "'"]
          else ["-d '<REQUEST_BODY>'"]
      ("-H \"Content-Type: " ++ contentType ++ "\"") :: dataPart
    else []

/- ## generateCurl and generateCompactCurl -/

/-- The `-X` token (curl-generator.ts lines 23-25). -/
def methodParts (endpoint : ParsedEndpoint) : List String :=
  if endpoint.method = .GET then [] else ["-X " ++ methodStr endpoint.method]

/-- The token list accumulated by `generateCurl`, in push order:
`curl`, method, auth header, custom headers, content type and body,
then the double-quoted URL. -/
def curlParts (endpoint : ParsedEndpoint) (o : CurlOptions) : List String :=
  ["curl"] ++ methodParts endpoint ++ authParts endpoint o ++
  headerParamParts endpoint o ++ bodyParts endpoint o ++
  ["\"" ++ urlWithQuery endpoint o ++ "\""]

/-- `generateCurl` (curl-generator.ts lines 17-106). -/
def generateCurl (endpoint : ParsedEndpoint) (o : CurlOptions) : String :=
  joinL " \\\n  " (curlParts endpoint o)

/-- Whitespace in the sense of the JS regex class `\s` (the characters
that occur in this code base). -/
def isWsChar (c : Char) : Bool :=
  c == ' ' || c == '\t' || c == '\n' || c == '\r' || c == '\x0c' || c == '\x0b'

/-- Is there a match of the regex `\s*\\\n\s*` starting at the head of
`s`?  Equivalent to: the maximal whitespace run at the head is followed
by a backslash and a newline. -/
def bsNlAfterWs (s : List Char) : Bool :=
  (s.dropWhile isWsChar).head? == some '\\' &&
  (s.dropWhile isWsChar).tail.head? == some '\n'

/-- The global replacement `fullCurl.replace(bs-nl-regex, " ")` of
`generateCompactCurl` (curl-generator.ts line 173): every leftmost match
of whitespace, backslash, newline, whitespace becomes a single space;
`fuel` bounds the recursion and is instantiated below with the string
length, which always suffices. -/
def jsCollapseF : Nat → List Char → List Char
  | 0, s => s
  | _ + 1, [] => []
  | f + 1, c :: cs =>
    if bsNlAfterWs (c :: cs) then
      ' ' :: jsCollapseF f (((c :: cs).dropWhile isWsChar).drop 2 |>.dropWhile isWsChar)
    else
      c :: jsCollapseF f cs

/-- The collapse on a character list; `s.length` fuel always suffices,
since every step strictly shortens the residual list. -/
def jsCollapseL (s : List Char) : List Char :=
  jsCollapseF s.length s

/-- `generateCompactCurl` (curl-generator.ts lines 171-174). -/
def generateCompactCurl (endpoint : ParsedEndpoint) (o : CurlOptions) : String :=
  ⟨jsCollapseL (generateCurl endpoint o).data⟩

/- ## maskSensitiveHeaders (src/lib/storage.ts lines 192-208) -/

/-- The sensitive header-name substrings (storage.ts line 194). -/
def sensitiveHeaders : List String :=
  ["authorization", "x-api-key", "api-key", "token", "bearer"]

/-- JS `toLowerCase`, on the ASCII header names that occur here. -/
def lowerStr (s : String) : String :=
  ⟨s.data.map Char.toLower⟩

/-- Does the lowercased key contain one of the sensitive substrings? -/
def isSensitiveKey (key : String) : Bool :=
  sensitiveHeaders.any (fun h => infixL h.data (lowerStr key).data)

/-- The value-masking step of `maskSensitiveHeaders`
(storage.ts lines 199-203). -/
def maskValue (value : String) : String :=
  if value.length > 8 then
    ⟨value.data.take 4 ++ "****".data ++ value.data.drop (value.length - 4)⟩
  else "****"

/-- `maskSensitiveHeaders` (storage.ts lines 192-208), on a header record
modelled as an association list with the record key uniqueness left
implicit (keys are never compared with one another). -/
def maskSensitiveHeaders (headers : List (String × String)) : List (String × String) :=
  headers.map (fun kv => if isSensitiveKey kv.1 then (kv.1, maskValue kv.2) else kv)

/- ## parseEndpoints (src/lib/openapi-parser.ts lines 39-78) -/

/-- `parseOperation` (openapi-parser.ts lines 66-78). -/
def parseOperation (path : String) (method : HttpMethod) (op : Operation) :
    ParsedEndpoint where
  path := path
  method := method
  operationId := op.operationId
  summary := op.summary
  description := op.description
  tags := op.tags.getD []
  parameters := op.parameters.getD []
  requestBody := op.requestBody
  hasAuth := match op.security with
    | some l => decide (0 < l.length)
    | none => false

/-- The `HTTP_METHODS` iteration order paired with the `PathItem` fields
(openapi-parser.ts line 4): get, post, put, patch, delete, options, head. -/
def pathItemMethods (it : PathItem) : List (HttpMethod × Option Operation) :=
  [(.GET, it.get), (.POST, it.post), (.PUT, it.put), (.PATCH, it.patch),
   (.DELETE, it.delete), (.OPTIONS, it.options), (.HEAD, it.head)]

/-- The endpoints collected by the nested loops of `parseEndpoints`
(openapi-parser.ts lines 46-53), before sorting. -/
def collectEndpoints (paths : List (String × PathItem)) : List ParsedEndpoint :=
  paths.flatMap (fun kv =>
    (pathItemMethods kv.2).filterMap (fun mo => mo.2.map (parseOperation kv.1 mo.1)))

/-- The comparator of the final sort (openapi-parser.ts lines 56-60):
compare paths with the collation `cmp` (JS `localeCompare`), and on ties
compare the uppercase method strings with the same collation. -/
def endpointCompare (cmp : String → String → Ordering)
    (a b : ParsedEndpoint) : Ordering :=
  match cmp a.path b.path with
  | .eq => cmp (methodStr a.method) (methodStr b.method)
  | o => o

/-- `parseEndpoints` (openapi-parser.ts lines 39-61), parameterised by the
collation `cmp` used by `localeCompare`; the JS stable `Array.sort` with a
consistent comparator is modelled by a stable merge sort on the
comparator-induced boolean order. -/
def parseEndpoints (cmp : String → String → Ordering) (spec : OpenAPISpec) :
    List ParsedEndpoint :=
  match spec.paths with
  | none => []
  | some paths =>
    (collectEndpoints paths).mergeSort
      (fun a b => !(endpointCompare cmp a b == .gt))

/-- Simple code-point collation on character lists: the reference
instantiation of the abstract `localeCompare` collation. -/
def lexCmpL : List Char → List Char → Ordering
  | [], [] => .eq
  | [], _ :: _ => .lt
  | _ :: _, [] => .gt
  | a :: as, b :: bs =>
    if a.toNat < b.toNat then .lt
    else if b.toNat < a.toNat then .gt
    else lexCmpL as bs

/-- Code-point collation on strings. -/
def lexCmpStr (a b : String) : Ordering :=
  lexCmpL a.data b.data

/- ## Template decomposition of URLs (used to state the path-substitution
claim).  A template is a list of brace-free literal segments and
`\x7bname\x7d` placeholders; `flattenT` is the URL it denotes. -/

/-- One piece of a URL template. -/
inductive TmplPiece where
  | lit (s : List Char)
  | ph (n : String)
deriving DecidableEq

/-- The string denoted by a template. -/
def flattenT : List TmplPiece → List Char
  | [] => []
  | .lit s :: t => s ++ flattenT t
  | .ph n :: t => placeholderOf n ++ flattenT t

/-- The characters contributed by one template piece. -/
def flatPiece : TmplPiece → List Char
  | .lit s => s
  | .ph n => placeholderOf n

/-- The placeholder names of a template, in order. -/
def phNames : List TmplPiece → List String
  | [] => []
  | .lit _ :: t => phNames t
  | .ph n :: t => n :: phNames t

/-- No brace characters occur in the character list. -/
def braceFreeL (s : List Char) : Bool :=
  s.all (fun c => !(c == '\x7b') && !(c == '\x7d'))

/-- Well-formedness of a template: all literal segments and all
placeholder names are brace-free. -/
def tmplWf : List TmplPiece → Bool
  | [] => true
  | .lit s :: t => braceFreeL s && tmplWf t
  | .ph n :: t => braceFreeL n.data && tmplWf t

/-- Replace the first `ph n` piece by the literal `r`. -/
def substT (n : String) (r : List Char) : List TmplPiece → List TmplPiece
  | [] => []
  | .lit s :: t => .lit s :: substT n r t
  | .ph m :: t => if m = n then .lit r :: t else .ph m :: substT n r t

/-- The one-pass rendering the specification describes: every placeholder
of a path-parameter name with a truthy supplied value becomes the
URL-encoded value; every other placeholder stays in place. -/
def renderT (pv : String → Option String) (pnames : List String) :
    List TmplPiece → List TmplPiece
  | [] => []
  | .lit s :: t => .lit s :: renderT pv pnames t
  | .ph n :: t =>
    (if n ∈ pnames then
      match truthyOpt (pv n) with
      | some v => .lit (encodeURIChars v.data)
      | none => .ph n
    else .ph n) :: renderT pv pnames t

/-- The substitution loop of `generateCurl`, lifted to templates: each
path parameter with a truthy value replaces its (first) placeholder. -/
def substAll (pv : String → Option String) :
    List Parameter → List TmplPiece → List TmplPiece
  | [], t => t
  | p :: rest, t =>
    let t' :=
      match truthyOpt (pv p.name) with
      | some v => substT p.name (encodeURIChars v.data) t
      | none => t
    substAll pv rest t'

/- ## Specification-side definitions, written from the wording of the
specification (for comparison with the source embeddings above). -/

/-- The specified query-string segment of one query parameter: supplied
values become `name=<url-encoded value>`, required parameters without a
value become the `name=\x7bname\x7d` placeholder, optional parameters
without a value are omitted. -/
def specQuerySegment (pv : String → Option String) (p : Parameter) : Option String :=
  match truthyOpt (pv p.name) with
  | some v => some (p.name ++ "=" ++ encodeURIComponent v)
  | none =>
    if p.required then some (p.name ++ "=" ++ String.mk (placeholderOf p.name))
    else none

/-- The specified auth header for a present token, by auth type. -/
def specAuthHeader : AuthType → String → String → String
  | .bearer, _, t => "-H \"Authorization: Bearer " ++ t ++ "\""
  | .apiKey, h, t => "-H \"" ++ h ++ ": " ++ t ++ "\""
  | .basic, _, t => "-H \"Authorization: Basic " ++ t ++ "\""

/-- Content-type resolution exactly as the specification words it: the
first preferred content type present, otherwise the first declared
content-type key, otherwise null. -/
def specContentTypeClaim (endpoint : ParsedEndpoint) : Option String :=
  match endpoint.requestBody with
  | none => none
  | some rb =>
    match rb.content with
    | none => none
    | some content =>
      let contentTypes := content.map (fun kv => kv.1)
      match preferredTypes.find? (fun pt => contentTypes.contains pt) with
      | some pt => some pt
      | none => contentTypes.head?

/-- Content-type resolution as amended: the first declared key only
counts when it is a non-empty string (the JS `contentTypes[0] || null`). -/
def specContentTypeAmended (endpoint : ParsedEndpoint) : Option String :=
  match endpoint.requestBody with
  | none => none
  | some rb =>
    match rb.content with
    | none => none
    | some content =>
      let contentTypes := content.map (fun kv => kv.1)
      match preferredTypes.find? (fun pt => contentTypes.contains pt) with
      | some pt => some pt
      | none =>
        match contentTypes.head? with
        | some k => if k = "" then none else some k
        | none => none

/-- The masking rule as the specification words it, on whole strings:
keep the first four and last four characters around `****` when the
length exceeds eight, else replace everything by `****`. -/
def specMaskValue (v : String) : String :=
  if v.length > 8 then
    String.mk (v.data.take 4) ++ "****" ++ String.mk (v.data.drop (v.length - 4))
  else "****"

/-- The collapse exactly as the specification words it: every
backslash + newline + indentation sequence becomes a single space
(the whitespace before the backslash is not part of the collapsed
sequence); `fuel` is instantiated with the string length below. -/
def specCollapseF : Nat → List Char → List Char
  | 0, s => s
  | _ + 1, [] => []
  | f + 1, '\\' :: '\n' :: rest => ' ' :: specCollapseF f (rest.dropWhile isWsChar)
  | f + 1, c :: cs => c :: specCollapseF f cs

/-- The specification-worded collapse on strings. -/
def specCollapseWords (s : String) : String :=
  ⟨specCollapseF s.data.length s.data⟩

/-- No backslash immediately followed by a newline occurs in the list. -/
def noBsNl : List Char → Bool
  | [] => true
  | [_] => true
  | c :: d :: rest => !(c == '\\' && d == '\n') && noBsNl (d :: rest)

/-- A command token is well-shaped for the collapse: nonempty, does not
start or end with whitespace, and contains no backslash-newline pair. -/
def partOk (p : String) : Bool :=
  (match p.data.head? with
   | some c => !isWsChar c
   | none => false) &&
  (match p.data.getLast? with
   | some c => !isWsChar c
   | none => false) &&
  noBsNl p.data

/-- The per-path-item endpoint list the specification describes: one
endpoint per defined method key, in the fixed key order. -/
def specEndpointsOfItem (path : String) (it : PathItem) : List ParsedEndpoint :=
  (match it.get with | some op => [parseOperation path .GET op] | none => []) ++
  (match it.post with | some op => [parseOperation path .POST op] | none => []) ++
  (match it.put with | some op => [parseOperation path .PUT op] | none => []) ++
  (match it.patch with | some op => [parseOperation path .PATCH op] | none => []) ++
  (match it.delete with | some op => [parseOperation path .DELETE op] | none => []) ++
  (match it.options with | some op => [parseOperation path .OPTIONS op] | none => []) ++
  (match it.head with | some op => [parseOperation path .HEAD op] | none => [])

/-- The full extraction the specification describes: one endpoint per
(path, defined method) pair. -/
def specExtractedEndpoints (spec : OpenAPISpec) : List ParsedEndpoint :=
  match spec.paths with
  | none => []
  | some paths => paths.flatMap (fun kv => specEndpointsOfItem kv.1 kv.2)

/-- The number of method keys defined on a path item. -/
def definedMethodCount (it : PathItem) : Nat :=
  (pathItemMethods it).countP (fun mo => mo.2.isSome)

/-- The total number of (path, method) pairs defined in the spec. -/
def totalDefinedMethods (spec : OpenAPISpec) : Nat :=
  match spec.paths with
  | none => 0
  | some paths => (paths.map (fun kv => definedMethodCount kv.2)).sum

/-- The rank of a method in the DELETE < GET < HEAD < OPTIONS < PATCH <
POST < PUT tie-break order the specification asserts. -/
def methodRank : HttpMethod → Nat
  | .DELETE => 0
  | .GET => 1
  | .HEAD => 2
  | .OPTIONS => 3
  | .PATCH => 4
  | .POST => 5
  | .PUT => 6

/-- The properties of a `localeCompare`-style collation that the sorting
argument needs: antisymmetry of the ordering value, transitivity of
strict comparison, and substitutivity of collation equality. -/
structure IsCollator (cmp : String → String → Ordering) : Prop where
  symm : ∀ a b, cmp a b = (cmp b a).swap
  lt_trans : ∀ a b c, cmp a b = .lt → cmp b c = .lt → cmp a c = .lt
  eq_compat : ∀ a b c, cmp a b = .eq → cmp a c = cmp b c

/- ## Concrete instances used by the closed theorems below. -/

/-- A parameter with only name, location and requiredness. -/
def mkParam (n loc : String) (req : Bool) : Parameter :=
  { name := n, inLoc := loc, description := none, required := req, schema := none }

/-- An endpoint with the fields the generator consumes. -/
def mkEndpoint (path : String) (m : HttpMethod) (ps : List Parameter)
    (rb : Option RequestBody) (auth : Bool) : ParsedEndpoint :=
  { path := path, method := m, operationId := none, summary := none,
    description := none, tags := [], parameters := ps, requestBody := rb,
    hasAuth := auth }

/-- Options with no auth, no body and no parameter values. -/
def baseOptions : CurlOptions :=
  { baseUrl := "https://api.example.com", authToken := none, authType := none,
    authHeader := none, includeExampleBody := false,
    paramValues := fun _ => none, bodyJson := none }

def c1Endpoint : ParsedEndpoint :=
  mkEndpoint "/items/\x7bid\x7d" .GET [mkParam "id" "path" true] none false

def c1Options : CurlOptions :=
  { baseOptions with paramValues := fun k => if k = "id" then some "42" else none }

def c2Endpoint : ParsedEndpoint :=
  mkEndpoint "/users/\x7bid\x7d/posts/\x7bpid\x7d" .GET
    [mkParam "id" "path" true, mkParam "pid" "path" true] none false

def c2Options : CurlOptions :=
  { baseOptions with paramValues := fun k => if k = "id" then some "a b" else none }

def c2Tmpl : List TmplPiece :=
  [.lit "https://api.example.com/users/".data, .ph "id",
   .lit "/posts/".data, .ph "pid"]

def c3Endpoint : ParsedEndpoint :=
  mkEndpoint "/search" .GET
    [mkParam "limit" "query" false, mkParam "page" "query" true,
     mkParam "q" "query" true] none false

def c3Options : CurlOptions :=
  { baseOptions with paramValues := fun k => if k = "q" then some "x y" else none }

def c4Endpoint : ParsedEndpoint :=
  mkEndpoint "/private" .GET [] none true

def c4TokenOptions : CurlOptions :=
  { baseOptions with
    authToken := some "tok123"
    authType := some AuthType.apiKey
    authHeader := some "X-Key" }

/-- A media type with no schema. -/
def c5Mt : MediaType := { schema := none, exampleVal := none }

def c5BadBody : RequestBody :=
  { description := none, required := false, content := some [("", c5Mt)] }

/-- An endpoint whose request body declares only the empty-string
content-type key. -/
def c5BadEndpoint : ParsedEndpoint :=
  mkEndpoint "/weird" .POST [] (some c5BadBody) false

def c5MpBody : RequestBody :=
  { description := none, required := false,
    content := some [("application/merge-patch+json", c5Mt)] }

/-- An endpoint whose request body declares only
`application/merge-patch+json`. -/
def c5MpEndpoint : ParsedEndpoint :=
  mkEndpoint "/patchable" .PATCH [] (some c5MpBody) false

def c7Endpoint : ParsedEndpoint :=
  mkEndpoint "/status" .GET [] none false

def c7Options : CurlOptions :=
  { baseOptions with baseUrl := "https://a" }

def c8Op : Operation :=
  { operationId := none, summary := none, description := none, tags := none,
    parameters := none, requestBody := none, security := none }

def c8Item1 : PathItem :=
  { get := some c8Op, post := some c8Op, put := none, patch := none,
    delete := some c8Op, options := none, head := none }

def c8Item2 : PathItem :=
  { get := some c8Op, post := none, put := none, patch := none,
    delete := none, options := none, head := some c8Op }

def c8Spec : OpenAPISpec :=
  { openapi := some "3.0.0", swagger := none,
    paths := some [("/b", c8Item2), ("/a", c8Item1)] }

/-- A property schema with only type, format, default and example. -/
def mkPropSchema (ty fmt : Option String) (dflt ex : Option JValue) : Schema :=
  .mk ty fmt none none none none dflt ex none

def c9Props : List (String × Schema) :=
  [("name", mkPropSchema (some "string") none none none),
   ("email", mkPropSchema (some "string") (some "email") none none),
   ("age", mkPropSchema (some "integer") none none (some (.jnum 7))),
   ("tags", mkPropSchema (some "array") none (some (.jarr [.jstr "x"])) none)]

def c9Schema : Schema :=
  .mk (some "object") none none (some c9Props) none none none none none

def c9Body : RequestBody :=
  { description := none, required := true,
    content := some [("application/json", { schema := some c9Schema, exampleVal := none })] }

def c9Endpoint : ParsedEndpoint :=
  mkEndpoint "/users" .POST [] (some c9Body) false

/- ## Helper lemmas -/

theorem truthyOpt_truthyOpt (x : Option String) :
    truthyOpt (truthyOpt x) = truthyOpt x := by
  cases x with
  | none => rfl
  | some s =>
    by_cases h : s = "" <;> simp [truthyOpt, h]

theorem substPathParams_congr (pv₁ pv₂ : String → Option String)
    (h : ∀ n, truthyOpt (pv₁ n) = truthyOpt (pv₂ n)) :
    ∀ (ps : List Parameter) (url : List Char),
      substPathParams pv₁ ps url = substPathParams pv₂ ps url := by
  intro ps
  induction ps with
  | nil => intro url; rfl
  | cons p rest ih =>
    intro url
    simp only [substPathParams, h p.name]
    exact ih _

theorem queryPartsLoop_congr (pv₁ pv₂ : String → Option String)
    (h : ∀ n, truthyOpt (pv₁ n) = truthyOpt (pv₂ n)) :
    ∀ (ps : List Parameter) (acc : List String),
      queryPartsLoop pv₁ ps acc = queryPartsLoop pv₂ ps acc := by
  intro ps
  induction ps with
  | nil => intro acc; rfl
  | cons p rest ih =>
    intro acc
    simp only [queryPartsLoop, h p.name]
    exact ih _

theorem headerPartsLoop_congr (pv₁ pv₂ : String → Option String)
    (h : ∀ n, truthyOpt (pv₁ n) = truthyOpt (pv₂ n)) :
    ∀ (ps : List Parameter) (acc : List String),
      headerPartsLoop pv₁ ps acc = headerPartsLoop pv₂ ps acc := by
  intro ps
  induction ps with
  | nil => intro acc; rfl
  | cons p rest ih =>
    intro acc
    simp only [headerPartsLoop, h p.name]
    exact ih _

theorem queryPartsLoop_eq (pv : String → Option String) :
    ∀ (ps : List Parameter) (acc : List String),
      queryPartsLoop pv ps acc = acc ++ ps.filterMap (specQuerySegment pv) := by
  intro ps
  induction ps with
  | nil => intro acc; simp [queryPartsLoop]
  | cons p rest ih =>
    intro acc
    rw [queryPartsLoop]
    cases h : truthyOpt (pv p.name) with
    | some v => simp [specQuerySegment, h, ih, List.filterMap_cons]
    | none =>
      by_cases hr : p.required = true <;>
        simp [specQuerySegment, h, hr, ih, List.filterMap_cons]

/- ## C1 -/

/-- C1: for the spec with the single operation GET /items/\x7bid\x7d, path
parameter id required, no auth, baseUrl https://api.example.com and
paramValues id ↦ 42, `generateCompactCurl` returns exactly
`curl "https://api.example.com/items/42"`. -/
theorem c1_end_to_end :
    generateCompactCurl c1Endpoint c1Options =
      "curl \"https://api.example.com/items/42\"" := by
  rfl

/- ## C10 -/

/-- C10: a parameter whose supplied value is the empty string is treated
by `generateCurl` exactly as if no value were supplied: replacing the
value map by its truthy restriction (which maps empty strings to none)
does not change the generated command, in either rendering. -/
theorem c10_empty_values_ignored :
    ∀ (e : ParsedEndpoint) (o : CurlOptions),
      generateCurl e { o with paramValues := fun n => truthyOpt (o.paramValues n) } =
        generateCurl e o ∧
      generateCompactCurl e { o with paramValues := fun n => truthyOpt (o.paramValues n) } =
        generateCompactCurl e o := by
  intro e o
  have hpv : ∀ n, truthyOpt (truthyOpt (o.paramValues n)) = truthyOpt (o.paramValues n) :=
    fun n => truthyOpt_truthyOpt _
  have hparts :
      curlParts e { o with paramValues := fun n => truthyOpt (o.paramValues n) } =
        curlParts e o := by
    simp only [curlParts, methodParts, authParts, headerParamParts, bodyParts,
      urlWithQuery, queryParts, urlAfterPath,
      substPathParams_congr _ _ hpv, queryPartsLoop_congr _ _ hpv,
      headerPartsLoop_congr _ _ hpv]
  constructor
  · simp only [generateCurl, hparts]
  · simp only [generateCompactCurl, generateCurl, hparts]

/- ## C6 -/

theorem maskValue_eq_specMaskValue (v : String) : maskValue v = specMaskValue v := by
  by_cases h : v.length > 8
  · simp only [maskValue, specMaskValue, if_pos h]
    apply String.ext
    simp [String.data_append]
  · simp only [maskValue, specMaskValue, if_neg h]

/-- C6: `maskSensitiveHeaders` masks exactly the headers whose lowercased
name contains a sensitive substring, keeping the first four and last four
characters around `****` when the value is longer than eight characters
and replacing the whole value otherwise, and leaves every other header
unchanged; in particular the 16-character value abcdefghijklmnop of an
Authorization header masks to abcd****mnop and the value short masks
to ****. -/
theorem c6_masking :
    ∀ (hs : List (String × String)),
      maskSensitiveHeaders hs =
        hs.map (fun kv =>
          (kv.1, if isSensitiveKey kv.1 then specMaskValue kv.2 else kv.2)) ∧
      maskSensitiveHeaders [("Authorization", "abcdefghijklmnop")] =
        [("Authorization", "abcd****mnop")] ∧
      maskSensitiveHeaders [("X-Api-Key", "short")] = [("X-Api-Key", "****")] ∧
      maskSensitiveHeaders [("Content-Type", "application/json")] =
        [("Content-Type", "application/json")] := by
  intro hs
  refine ⟨?_, by rfl, by rfl, by rfl⟩
  unfold maskSensitiveHeaders
  apply List.map_congr_left
  intro kv _
  by_cases h : isSensitiveKey kv.1 = true
  · simp [h, maskValue_eq_specMaskValue]
  · simp [h]

/- ## C4 -/

/-- C4: `generateCurl` emits exactly one authentication header: with a
truthy token it is chosen by authType (bearer, api-key with the
configured or default header name, or basic with the token verbatim);
with no token but hasAuth true it is the Bearer YOUR_TOKEN placeholder;
with no token and hasAuth false no auth header is emitted. -/
theorem c4_auth_header :
    ∀ (e : ParsedEndpoint) (o : CurlOptions),
      (∀ t, truthyOpt o.authToken = some t →
        authParts e o =
          [specAuthHeader (o.authType.getD .bearer) (o.authHeader.getD "X-API-Key") t]) ∧
      (truthyOpt o.authToken = none → e.hasAuth = true →
        authParts e o = ["-H \"Authorization: Bearer <YOUR_TOKEN>\""]) ∧
      (truthyOpt o.authToken = none → e.hasAuth = false → authParts e o = []) := by
  intro e o
  refine ⟨?_, ?_, ?_⟩
  · intro t ht
    unfold authParts
    rw [ht]
    cases o.authType.getD .bearer <;> rfl
  · intro ht ha
    unfold authParts
    rw [ht, ha]
    rfl
  · intro ht ha
    unfold authParts
    rw [ht, ha]
    rfl

/-- C4 witness: the three cases at concrete inputs. -/
theorem c4_auth_header_witness :
    authParts c4Endpoint c4TokenOptions = [specAuthHeader .apiKey "X-Key" "tok123"] ∧
    authParts c4Endpoint baseOptions = ["-H \"Authorization: Bearer <YOUR_TOKEN>\""] ∧
    authParts c1Endpoint baseOptions = [] :=
  ⟨(c4_auth_header c4Endpoint c4TokenOptions).1 "tok123" rfl,
   (c4_auth_header c4Endpoint baseOptions).2.1 rfl rfl,
   (c4_auth_header c1Endpoint baseOptions).2.2 rfl rfl⟩

/- ## C3 -/

/-- C3: the query string of `generateCurl` contains one
`name=<url-encoded value>` segment per query parameter with a truthy
supplied value, one `name=\x7bname\x7d` placeholder segment per required
query parameter without one, nothing at all for optional query
parameters without one, and no `?` is appended when no segment
results. -/
theorem c3_query_string :
    ∀ (e : ParsedEndpoint) (o : CurlOptions),
      queryParts e o = (getQueryParams e).filterMap (specQuerySegment o.paramValues) ∧
      (queryParts e o = [] → urlWithQuery e o = urlAfterPath e o) ∧
      (∀ q qs, queryParts e o = q :: qs →
        urlWithQuery e o = urlAfterPath e o ++ "?" ++ joinL "&" (q :: qs)) := by
  intro e o
  refine ⟨?_, ?_, ?_⟩
  · simp [queryParts, queryPartsLoop_eq]
  · intro h
    unfold urlWithQuery
    rw [h]
  · intro q qs h
    unfold urlWithQuery
    rw [h]

/-- C3 witness: one supplied, one required-unfilled and one
optional-unfilled query parameter at concrete inputs. -/
theorem c3_query_string_witness :
    queryParts c3Endpoint c3Options =
      (getQueryParams c3Endpoint).filterMap (specQuerySegment c3Options.paramValues) ∧
    urlWithQuery c3Endpoint c3Options =
      urlAfterPath c3Endpoint c3Options ++ "?" ++
        joinL "&" ["page=\x7bpage\x7d", "q=x%20y"] :=
  ⟨(c3_query_string c3Endpoint c3Options).1,
   (c3_query_string c3Endpoint c3Options).2.2 "page=\x7bpage\x7d" ["q=x%20y"] rfl⟩

/- ## C5 -/

theorem preferred_find_ne_empty {f : String → Bool} {pt : String}
    (h : preferredTypes.find? f = some pt) : pt ≠ "" := by
  have hm := List.mem_of_find?_eq_some h
  fin_cases hm <;> decide

theorem truthyOpt_getRequestBodyContentType (e : ParsedEndpoint) :
    truthyOpt (getRequestBodyContentType e) = getRequestBodyContentType e := by
  obtain ⟨p, m, oid, smm, dsc, tg, prm, rbo, au⟩ := e
  cases rbo with
  | none => rfl
  | some rb =>
    obtain ⟨dsc2, req2, cnt⟩ := rb
    cases cnt with
    | none => rfl
    | some content =>
      simp only [getRequestBodyContentType]
      cases h : preferredTypes.find?
          (fun pt => ((content.map (fun kv => kv.1)).contains pt)) with
      | some pt => simp [truthyOpt, preferred_find_ne_empty h]
      | none => simp [truthyOpt_truthyOpt]

/-- C5 counterexample: for a request body declaring only the empty-string
content-type key, the code resolves to null while the claim prescribes
the first declared key. -/
theorem c5_counterexample :
    getRequestBodyContentType c5BadEndpoint ≠ specContentTypeClaim c5BadEndpoint := by
  decide

/-- C5 as amended: `getRequestBodyContentType` returns the first of the
four preferred JSON content types present, else the first declared
content-type key when that key is non-empty, else null; the Content-Type
header of a POST/PUT/PATCH request with a body uses this resolved value,
defaulting to application/json only when the resolution is null — in
particular a body declaring only application/merge-patch+json resolves
to application/merge-patch+json. -/
theorem c5_content_type :
    ∀ (e : ParsedEndpoint) (o : CurlOptions),
      getRequestBodyContentType e = specContentTypeAmended e ∧
      (∀ rb, e.requestBody = some rb →
        (e.method = .POST ∨ e.method = .PUT ∨ e.method = .PATCH) →
        ("-H \"Content-Type: " ++
            (getRequestBodyContentType e).getD "application/json" ++ "\"") ∈
          curlParts e o) ∧
      getRequestBodyContentType c5MpEndpoint = some "application/merge-patch+json" := by
  intro e o
  refine ⟨?_, ?_, by rfl⟩
  · obtain ⟨p, m, oid, smm, dsc, tg, prm, rbo, au⟩ := e
    cases rbo with
    | none => rfl
    | some rb =>
      obtain ⟨dsc2, req2, cnt⟩ := rb
      cases cnt with
      | none => rfl
      | some content =>
        simp only [getRequestBodyContentType, specContentTypeAmended]
        cases h : preferredTypes.find?
            (fun pt => ((content.map (fun kv => kv.1)).contains pt)) with
        | some pt => rfl
        | none =>
          cases (content.map (fun kv => kv.1)).head? with
          | some k => simp [truthyOpt]
          | none => rfl
  · intro rb hrb hm
    have hbody : ("-H \"Content-Type: " ++
        (getRequestBodyContentType e).getD "application/json" ++ "\"") ∈ bodyParts e o := by
      unfold bodyParts
      rw [hrb, if_pos hm, truthyOpt_getRequestBodyContentType]
      exact List.mem_cons_self _ _
    exact List.mem_append_left _ (List.mem_append_right _ hbody)

/-- C5 witness: the merge-patch-only endpoint emits its declared content
type in the generated command. -/
theorem c5_content_type_witness :
    ("-H \"Content-Type: " ++
        (getRequestBodyContentType c5MpEndpoint).getD "application/json" ++ "\"") ∈
      curlParts c5MpEndpoint baseOptions :=
  (c5_content_type c5MpEndpoint baseOptions).2.1 c5MpBody rfl (Or.inr (Or.inr rfl))

/- ## C7: collapse lemmas -/

theorem dropWhile_len_le (p : Char → Bool) (l : List Char) :
    (List.dropWhile p l).length ≤ l.length := by
  induction l with
  | nil => simp [List.dropWhile]
  | cons c cs ih =>
    rw [List.dropWhile_cons]
    split
    · simp only [List.length_cons]; omega
    · simp only [List.length_cons]; omega

theorem jsCollapseF_irrel :
    ∀ (f g : Nat) (s : List Char), s.length ≤ f → s.length ≤ g →
      jsCollapseF f s = jsCollapseF g s := by
  intro f
  induction f with
  | zero =>
    intro g s hf _
    have : s = [] := List.eq_nil_of_length_eq_zero (by omega)
    subst this
    cases g <;> rfl
  | succ f ih =>
    intro g s hf hg
    cases s with
    | nil => cases g <;> rfl
    | cons c cs =>
      cases g with
      | zero => simp at hg
      | succ g =>
        simp only [jsCollapseF]
        by_cases hb : bsNlAfterWs (c :: cs) = true
        · simp only [hb, if_true]
          have hlen : ((((c :: cs).dropWhile isWsChar).drop 2).dropWhile isWsChar).length ≤
              cs.length := by
            have h1 := dropWhile_len_le isWsChar (((c :: cs).dropWhile isWsChar).drop 2)
            have h2 := List.length_drop 2 ((c :: cs).dropWhile isWsChar)
            have h3 := dropWhile_len_le isWsChar (c :: cs)
            have hr : ((c :: cs).dropWhile isWsChar).length ≠ 0 ∧
                (((c :: cs).dropWhile isWsChar).tail).length ≠ 0 := by
              unfold bsNlAfterWs at hb
              cases hrr : (c :: cs).dropWhile isWsChar with
              | nil => rw [hrr] at hb; simp at hb
              | cons a as =>
                cases as with
                | nil => rw [hrr] at hb; simp at hb
                | cons b bs => simp
            simp only [List.length_cons] at h3
            simp only [List.length_tail] at hr
            omega
          rw [ih g _ (by simp only [List.length_cons] at hf; omega) (by simp only [List.length_cons] at hg; omega)]
        · simp only [hb, if_false, Bool.false_eq_true]
          rw [ih g cs (by simp only [List.length_cons] at hf; omega) (by simp only [List.length_cons] at hg; omega)]

theorem jsCollapseL_cons (c : Char) (cs : List Char) :
    jsCollapseL (c :: cs) =
      if bsNlAfterWs (c :: cs) then
        ' ' :: jsCollapseL (((c :: cs).dropWhile isWsChar).drop 2 |>.dropWhile isWsChar)
      else c :: jsCollapseL cs := by
  unfold jsCollapseL
  rw [show (c :: cs).length = cs.length + 1 from rfl]
  rw [jsCollapseF]
  by_cases hb : bsNlAfterWs (c :: cs) = true
  · simp only [hb, if_true]
    have h1 := dropWhile_len_le isWsChar (((c :: cs).dropWhile isWsChar).drop 2)
    have h2 := List.length_drop 2 ((c :: cs).dropWhile isWsChar)
    have h3 := dropWhile_len_le isWsChar (c :: cs)
    rw [jsCollapseF_irrel cs.length _ _ (by simp only [List.length_cons] at h3; omega) (le_refl _)]
  · simp only [hb, if_false, Bool.false_eq_true]

theorem dropWhile_head_nonws (l : List Char) (c : Char)
    (h : l.head? = some c) (hc : isWsChar c = false) :
    l.dropWhile isWsChar = l := by
  cases l with
  | nil => rfl
  | cons a as =>
    simp only [List.head?_cons, Option.some.injEq] at h
    subst h
    rw [List.dropWhile_cons, if_neg (by simp [hc])]

theorem noBsNl_tail (c : Char) (cs : List Char) (h : noBsNl (c :: cs) = true) :
    noBsNl cs = true := by
  cases cs with
  | nil => rfl
  | cons d ds =>
    unfold noBsNl at h
    cases hnn : noBsNl (d :: ds) with
    | true => rfl
    | false => rw [hnn] at h; simp at h

theorem bsNl_head_pair (c d : Char) (cs : List Char) (h : noBsNl (c :: d :: cs) = true) :
    (c == '\\' && d == '\n') = false := by
  unfold noBsNl at h
  cases hcd : (c == '\\' && d == '\n') with
  | false => rfl
  | true => rw [hcd] at h; simp at h

theorem no_match_inside (xs ys : List Char) (hne : xs ≠ [])
    (hnb : noBsNl xs = true)
    (hlast : ∀ c, xs.getLast? = some c → isWsChar c = false)
    (hcross : xs.getLast? = some '\\' → ys.head? ≠ some '\n') :
    bsNlAfterWs (xs ++ ys) = false := by
  induction xs with
  | nil => exact absurd rfl hne
  | cons x xs ih =>
    by_cases hx : isWsChar x = true
    · cases xs with
      | nil =>
        have := hlast x rfl
        rw [this] at hx
        exact absurd hx (by simp)
      | cons y ys2 =>
        have hstep : bsNlAfterWs ((x :: y :: ys2) ++ ys) = bsNlAfterWs ((y :: ys2) ++ ys) := by
          unfold bsNlAfterWs
          rw [List.cons_append, List.dropWhile_cons, if_pos hx]
        rw [hstep]
        exact ih (by simp) (noBsNl_tail _ _ hnb)
          (fun c hc => hlast c (by rw [List.getLast?_cons_cons]; exact hc))
          (fun hc => hcross (by rw [List.getLast?_cons_cons]; exact hc))
    · have hx' : isWsChar x = false := by
        cases hxx : isWsChar x
        · rfl
        · exact absurd hxx hx
      unfold bsNlAfterWs
      rw [List.cons_append, List.dropWhile_cons, if_neg (by simp [hx'])]
      simp only [List.head?_cons, List.tail_cons]
      by_cases hxb : x = '\\'
      · subst hxb
        cases xs with
        | nil =>
          simp only [List.nil_append]
          have := hcross (by rfl)
          cases hy : ys.head? with
          | none => simp [hy]
          | some d =>
            have hd : d ≠ '\n' := by
              intro hdd
              subst hdd
              exact this hy
            simp [hy, hd]
        | cons y ys2 =>
          have hpair := bsNl_head_pair '\\' y ys2 hnb
          have hy : (y == '\n') = false := by
            cases hyy : (y == '\n') with
            | false => rfl
            | true => rw [hyy] at hpair; simp at hpair
          simp only [List.cons_append, List.head?_cons]
          simp [hy]
      · have : (x == '\\') = false := by
          cases hxx : (x == '\\') with
          | false => rfl
          | true => exact absurd (by simpa using hxx) hxb
        simp [this]

theorem collapse_skip (xs ys : List Char)
    (hnb : noBsNl xs = true)
    (hlast : ∀ c, xs.getLast? = some c → isWsChar c = false)
    (hcross : xs.getLast? = some '\\' → ys.head? ≠ some '\n') :
    jsCollapseL (xs ++ ys) = xs ++ jsCollapseL ys := by
  induction xs with
  | nil => rfl
  | cons x xs ih =>
    have hfalse := no_match_inside (x :: xs) ys (by simp) hnb hlast hcross
    rw [List.cons_append, jsCollapseL_cons]
    rw [show (x :: (xs ++ ys)) = ((x :: xs) ++ ys) from rfl, hfalse]
    simp only [Bool.false_eq_true, if_false]
    cases xs with
    | nil => simp [jsCollapseL]
    | cons y ys2 =>
      rw [ih (noBsNl_tail _ _ hnb)
        (fun c hc => hlast c (by rw [List.getLast?_cons_cons]; exact hc))
        (fun hc => hcross (by rw [List.getLast?_cons_cons]; exact hc))]
      simp

theorem partOk_parts (p : String) (h : partOk p = true) :
    noBsNl p.data = true ∧
    (∀ c, p.data.head? = some c → isWsChar c = false) ∧
    (∀ c, p.data.getLast? = some c → isWsChar c = false) ∧
    p.data ≠ [] := by
  unfold partOk at h
  cases hh : p.data.head? with
  | none => rw [hh] at h; simp at h
  | some c0 =>
    rw [hh] at h
    cases hl : p.data.getLast? with
    | none => rw [hl] at h; simp at h
    | some cl =>
      rw [hl] at h
      simp only [Bool.and_eq_true, Bool.not_eq_true'] at h
      refine ⟨h.2, ?_, ?_, ?_⟩
      · intro c hc
        cases hc
        exact h.1.1
      · intro c hc
        cases hc
        exact h.1.2
      · intro hnil
        rw [hnil] at hh
        cases hh

theorem joinL_data_cons (sep x y : String) (rest : List String) :
    (joinL sep (x :: y :: rest)).data =
      x.data ++ sep.data ++ (joinL sep (y :: rest)).data := by
  simp [joinL, String.data_append]

theorem joinL_head_eq (sep q : String) (qs : List String) (hq : q.data ≠ []) :
    (joinL sep (q :: qs)).data.head? = q.data.head? := by
  cases qs with
  | nil => rfl
  | cons y rest =>
    rw [joinL_data_cons]
    rw [List.append_assoc, List.head?_append_of_ne_nil _ hq]

theorem collapse_join (parts : List String) (h : ∀ p ∈ parts, partOk p = true) :
    jsCollapseL (joinL " \\\n  " parts).data = (joinL " " parts).data := by
  induction parts with
  | nil => rfl
  | cons p rest ih =>
    cases rest with
    | nil =>
      obtain ⟨hnb, hhead, hlst, hne⟩ := partOk_parts p (h p (by simp))
      have hs := collapse_skip p.data [] hnb hlst (by intro hc hcc; simp at hcc)
      have hnil2 : jsCollapseL ([] : List Char) = [] := rfl
      have hps : jsCollapseL p.data = p.data := by simpa [hnil2] using hs
      simpa [joinL] using hps
    | cons q rest2 =>
      obtain ⟨hnbp, hheadp, hlstp, hnep⟩ := partOk_parts p (h p (by simp))
      obtain ⟨hnbq, hheadq, hlstq, hneq⟩ := partOk_parts q (h q (by simp))
      have ihq : jsCollapseL (joinL " \\\n  " (q :: rest2)).data =
          (joinL " " (q :: rest2)).data := ih (fun r hr => h r (by simp [hr]))
      rw [joinL_data_cons, List.append_assoc]
      rw [collapse_skip p.data _ hnbp hlstp (by intro hc hcc; cases hcc)]
      have hsep : (" \\\n  ".data ++ (joinL " \\\n  " (q :: rest2)).data) =
          ' ' :: '\\' :: '\n' :: ' ' :: ' ' :: (joinL " \\\n  " (q :: rest2)).data := rfl
      rw [hsep, jsCollapseL_cons, if_pos (by rfl)]
      have hq0 : ∃ c0, (joinL " \\\n  " (q :: rest2)).data.head? = some c0 ∧ isWsChar c0 = false := by
        have hhd := joinL_head_eq " \\\n  " q rest2 hneq
        cases hcq : q.data.head? with
        | none =>
          cases hqd : q.data with
          | nil => exact absurd hqd hneq
          | cons a as => rw [hqd] at hcq; cases hcq
        | some c0 =>
          refine ⟨c0, ?_, hheadq c0 hcq⟩
          rw [hhd, hcq]
      obtain ⟨c0, hc0, hc0w⟩ := hq0
      have hdw : List.dropWhile isWsChar (List.drop 2 (List.dropWhile isWsChar
          (' ' :: '\\' :: '\n' :: ' ' :: ' ' :: (joinL " \\\n  " (q :: rest2)).data))) =
          (joinL " \\\n  " (q :: rest2)).data := by
        rw [List.dropWhile_cons, if_pos (by decide)]
        rw [List.dropWhile_cons, if_neg (by decide)]
        have hdrop : ('\\' :: '\n' :: ' ' :: ' ' ::
            (joinL " \\\n  " (q :: rest2)).data).drop 2 =
            ' ' :: ' ' :: (joinL " \\\n  " (q :: rest2)).data := rfl
        rw [hdrop]
        rw [List.dropWhile_cons, if_pos (by decide)]
        rw [List.dropWhile_cons, if_pos (by decide)]
        exact dropWhile_head_nonws _ c0 hc0 hc0w
      rw [hdw, ihq]
      rw [joinL_data_cons]
      simp

/-- C7 counterexample: already on a parameterless GET endpoint,
`generateCompactCurl` differs from the multi-line command with every
backslash + newline + indentation sequence (as literally worded, not
including the preceding space) collapsed to a single space: the code
also swallows the whitespace before the backslash. -/
theorem c7_counterexample :
    generateCompactCurl c7Endpoint c7Options ≠
      specCollapseWords (generateCurl c7Endpoint c7Options) := by
  decide

/-- C7 amended: `generateCompactCurl` equals `generateCurl` with every
whitespace + backslash + newline + whitespace run collapsed to a single
space (the code's regex also eats the space before the backslash); when
every emitted token is nonempty, free of backslash-newline pairs and
does not start or end with whitespace, this is exactly the token list
joined by single spaces. -/
theorem c7_compact_collapse (e : ParsedEndpoint) (o : CurlOptions)
    (h : ∀ p ∈ curlParts e o, partOk p = true) :
    generateCompactCurl e o = ⟨jsCollapseL (generateCurl e o).data⟩ ∧
    generateCompactCurl e o = joinL " " (curlParts e o) := by
  refine ⟨rfl, ?_⟩
  apply String.ext
  show jsCollapseL (generateCurl e o).data = (joinL " " (curlParts e o)).data
  unfold generateCurl
  exact collapse_join (curlParts e o) h

/-- C7 witness: the collapse equality at a concrete endpoint. -/
theorem c7_compact_collapse_witness :
    generateCompactCurl c7Endpoint c7Options =
      joinL " " (curlParts c7Endpoint c7Options) :=
  (c7_compact_collapse c7Endpoint c7Options (by decide)).2

/- ## C2: path-parameter substitution lemmas -/

theorem braceFree_mem {l : List Char} (h : braceFreeL l = true) {c : Char} (hc : c ∈ l) :
    c ≠ '\x7b' ∧ c ≠ '\x7d' := by
  unfold braceFreeL at h
  have := List.all_eq_true.mp h c hc
  constructor
  · intro he; subst he; simp at this
  · intro he; subst he; simp at this

theorem getD_mem_or (l : List Char) (i : Nat) (d : Char) :
    l.getD i d = d ∨ l.getD i d ∈ l := by
  induction l generalizing i with
  | nil => left; simp [List.getD]
  | cons c cs ih =>
    cases i with
    | zero => right; simp [List.getD]
    | succ j =>
      rcases ih j with h | h
      · left; simpa [List.getD] using h
      · right
        have : (c :: cs).getD (j + 1) d = cs.getD j d := by simp [List.getD]
        rw [this]
        exact List.mem_cons_of_mem c h

theorem hexDigitChar_ne_brace (n : Nat) :
    hexDigitChar n ≠ '\x7b' ∧ hexDigitChar n ≠ '\x7d' := by
  unfold hexDigitChar
  rcases getD_mem_or "0123456789ABCDEF".data n '0' with h | h
  · rw [h]
    refine ⟨by decide, by decide⟩
  · constructor
    · intro he; rw [he] at h; exact absurd h (by decide)
    · intro he; rw [he] at h; exact absurd h (by decide)

theorem encodeURIChars_braceFree (s : List Char) :
    braceFreeL (encodeURIChars s) = true := by
  unfold braceFreeL
  rw [List.all_eq_true]
  intro c hc
  unfold encodeURIChars at hc
  rw [List.mem_flatMap] at hc
  obtain ⟨a, _, hca⟩ := hc
  by_cases hu : isUnreservedChar a = true
  · rw [if_pos hu] at hca
    simp only [List.mem_singleton] at hca
    subst hca
    have h1 : c ≠ '\x7b' := fun he => by rw [he] at hu; exact absurd hu (by decide)
    have h2 : c ≠ '\x7d' := fun he => by rw [he] at hu; exact absurd hu (by decide)
    simp [h1, h2]
  · rw [if_neg hu] at hca
    rw [List.mem_flatMap] at hca
    obtain ⟨b, _, hcb⟩ := hca
    unfold pctByte at hcb
    simp only [List.mem_cons, List.mem_singleton, List.not_mem_nil, or_false] at hcb
    rcases hcb with h | h | h
    · subst h; decide
    · subst h
      have := hexDigitChar_ne_brace (b / 16)
      simp [this.1, this.2]
    · subst h
      have := hexDigitChar_ne_brace (b % 16)
      simp [this.1, this.2]

theorem startsWithL_close (a : List Char) :
    ∀ (b ys : List Char), (∀ c ∈ a, c ≠ '\x7d') → (∀ c ∈ b, c ≠ '\x7d') →
    (startsWithL (a ++ ['\x7d']) (b ++ '\x7d' :: ys) = true ↔ a = b) := by
  induction a with
  | nil =>
    intro b ys _ hb
    cases b with
    | nil => simp [startsWithL]
    | cons d bs =>
      have hd := hb d (by simp)
      simp [startsWithL]
      intro he
      exact absurd he.symm hd
  | cons c as ih =>
    intro b ys ha hb
    cases b with
    | nil =>
      have hc := ha c (by simp)
      simp [startsWithL]
      intro he
      exact absurd he hc
    | cons d bs =>
      simp only [List.cons_append, startsWithL, Bool.and_eq_true, beq_iff_eq,
        List.append_eq]
      rw [ih bs ys (fun x hx => ha x (by simp [hx])) (fun x hx => hb x (by simp [hx]))]
      constructor
      · rintro ⟨h1, h2⟩; rw [h1, h2]
      · intro h; cases h; exact ⟨rfl, rfl⟩

theorem startsWithL_ph (n m : String) (ys : List Char)
    (hn : braceFreeL n.data = true) (hm : braceFreeL m.data = true) :
    (startsWithL (placeholderOf n) (placeholderOf m ++ ys) = true ↔ n = m) := by
  have hrw : placeholderOf m ++ ys = '\x7b' :: (m.data ++ '\x7d' :: ys) := by
    simp [placeholderOf]
  rw [hrw]
  have hstep : startsWithL (placeholderOf n) ('\x7b' :: (m.data ++ '\x7d' :: ys)) =
      startsWithL (n.data ++ ['\x7d']) (m.data ++ '\x7d' :: ys) := by
    show startsWithL ('\x7b' :: (n.data ++ ['\x7d'])) _ = _
    simp [startsWithL]
  rw [hstep]
  rw [startsWithL_close n.data m.data ys
    (fun c hc => (braceFree_mem hn hc).2) (fun c hc => (braceFree_mem hm hc).2)]
  constructor
  · intro h; exact String.ext h
  · intro h; rw [h]

theorem replFirst_skip (xs ys pat r : List Char)
    (hx : ∀ c ∈ xs, c ≠ '\x7b') (hpat : pat.head? = some '\x7b') :
    replFirst (xs ++ ys) pat r = xs ++ replFirst ys pat r := by
  induction xs with
  | nil => rfl
  | cons x xs ih =>
    rw [List.cons_append, replFirst]
    have hsw : startsWithL pat (x :: (xs ++ ys)) = false := by
      cases pat with
      | nil => cases hpat
      | cons p ps =>
        simp only [List.head?_cons, Option.some.injEq] at hpat
        subst hpat
        have hxne := hx x (by simp)
        simp [startsWithL, Ne.symm hxne]
    rw [hsw]
    simp only [Bool.false_eq_true, if_false, List.cons_append]
    rw [ih (fun c hc => hx c (by simp [hc]))]

theorem startsWithL_decomp (pat : List Char) :
    ∀ (s : List Char), startsWithL pat s = true → s = pat ++ s.drop pat.length := by
  induction pat with
  | nil => intro s _; simp
  | cons p ps ih =>
    intro s hs
    cases s with
    | nil => cases hs
    | cons c cs =>
      simp only [startsWithL, Bool.and_eq_true, beq_iff_eq] at hs
      obtain ⟨he, hrest⟩ := hs
      subst he
      have := ih cs hrest
      simp only [List.length_cons, List.drop_succ_cons, List.cons_append]
      exact congrArg (p :: ·) this

theorem replFirst_self (s pat : List Char) : replFirst s pat pat = s := by
  induction s with
  | nil => rfl
  | cons c cs ih =>
    rw [replFirst]
    by_cases h : startsWithL pat (c :: cs) = true
    · rw [h]
      simp only [if_true]
      exact (startsWithL_decomp pat (c :: cs) h).symm
    · simp only [h, Bool.false_eq_true, if_false]
      rw [ih]

theorem tmplWf_cons_lit {s : List Char} {t : List TmplPiece}
    (h : tmplWf (.lit s :: t) = true) : braceFreeL s = true ∧ tmplWf t = true := by
  unfold tmplWf at h
  cases hb : braceFreeL s with
  | false => rw [hb] at h; simp at h
  | true =>
    rw [hb] at h
    exact ⟨rfl, by simpa using h⟩

theorem tmplWf_cons_ph {m : String} {t : List TmplPiece}
    (h : tmplWf (.ph m :: t) = true) : braceFreeL m.data = true ∧ tmplWf t = true := by
  unfold tmplWf at h
  cases hb : braceFreeL m.data with
  | false => rw [hb] at h; simp at h
  | true =>
    rw [hb] at h
    exact ⟨rfl, by simpa using h⟩

theorem flattenT_ph_cons (m : String) (t : List TmplPiece) :
    flattenT (.ph m :: t) = '\x7b' :: (m.data ++ '\x7d' :: flattenT t) := by
  simp [flattenT, placeholderOf]

theorem replFirst_template (n : String) (r : List Char) (hn : braceFreeL n.data = true) :
    ∀ (t : List TmplPiece), tmplWf t = true →
      replFirst (flattenT t) (placeholderOf n) r = flattenT (substT n r t) := by
  intro t
  induction t with
  | nil => intro _; rfl
  | cons pc t ih =>
    intro hwf
    cases pc with
    | lit s =>
      obtain ⟨hbs, hwt⟩ := tmplWf_cons_lit hwf
      show replFirst (s ++ flattenT t) (placeholderOf n) r = flattenT (.lit s :: substT n r t)
      rw [replFirst_skip s (flattenT t) (placeholderOf n) r
        (fun c hc => (braceFree_mem hbs hc).1) rfl]
      rw [ih hwt]
      rfl
    | ph m =>
      obtain ⟨hbm, hwt⟩ := tmplWf_cons_ph hwf
      by_cases hmn : m = n
      · subst hmn
        show replFirst (placeholderOf m ++ flattenT t) (placeholderOf m) r = _
        have hsub : substT m r (.ph m :: t) = .lit r :: t := by simp [substT]
        rw [hsub]
        have hsw : startsWithL (placeholderOf m) (placeholderOf m ++ flattenT t) = true :=
          (startsWithL_ph m m _ hbm hbm).mpr rfl
        have hdec : placeholderOf m ++ flattenT t =
            '\x7b' :: (m.data ++ '\x7d' :: flattenT t) := by simp [placeholderOf]
        rw [hdec] at hsw ⊢
        rw [replFirst, hsw]
        simp only [if_true]
        rw [← hdec, List.drop_left]
        rfl
      · show replFirst (placeholderOf m ++ flattenT t) (placeholderOf n) r = _
        have hsub : substT n r (.ph m :: t) = .ph m :: substT n r t := by
          simp [substT, hmn]
        rw [hsub]
        have hsw : startsWithL (placeholderOf n) (placeholderOf m ++ flattenT t) = false := by
          cases hv : startsWithL (placeholderOf n) (placeholderOf m ++ flattenT t) with
          | false => rfl
          | true =>
            have := (startsWithL_ph n m _ hn hbm).mp hv
            exact absurd this.symm hmn
        have hdec : placeholderOf m ++ flattenT t =
            '\x7b' :: (m.data ++ '\x7d' :: flattenT t) := by simp [placeholderOf]
        rw [hdec] at hsw ⊢
        rw [replFirst, hsw]
        simp only [Bool.false_eq_true, if_false]
        rw [replFirst_skip m.data ('\x7d' :: flattenT t) (placeholderOf n) r
          (fun c hc => (braceFree_mem hbm hc).1) rfl]
        have hcl : replFirst ('\x7d' :: flattenT t) (placeholderOf n) r =
            '\x7d' :: replFirst (flattenT t) (placeholderOf n) r := by
          rw [replFirst]
          have hf : startsWithL (placeholderOf n) ('\x7d' :: flattenT t) = false := by
            show startsWithL ('\x7b' :: (n.data ++ ['\x7d'])) _ = false
            simp [startsWithL]
          rw [hf]
          simp
        rw [hcl, ih hwt, flattenT_ph_cons]

theorem substT_wf (n : String) (r : List Char) (hr : braceFreeL r = true) :
    ∀ (t : List TmplPiece), tmplWf t = true → tmplWf (substT n r t) = true := by
  intro t
  induction t with
  | nil => intro _; rfl
  | cons pc t ih =>
    intro hwf
    cases pc with
    | lit s =>
      obtain ⟨hbs, hwt⟩ := tmplWf_cons_lit hwf
      show tmplWf (.lit s :: substT n r t) = true
      unfold tmplWf
      rw [hbs, ih hwt]
      rfl
    | ph m =>
      obtain ⟨hbm, hwt⟩ := tmplWf_cons_ph hwf
      rw [substT]
      by_cases hmn : m = n
      · rw [if_pos hmn]
        unfold tmplWf
        rw [hr, hwt]
        rfl
      · rw [if_neg hmn]
        unfold tmplWf
        rw [hbm, ih hwt]
        rfl

theorem phNames_substT_sublist (n : String) (r : List Char) :
    ∀ (t : List TmplPiece), (phNames (substT n r t)).Sublist (phNames t) := by
  intro t
  induction t with
  | nil => exact List.Sublist.refl _
  | cons pc t ih =>
    cases pc with
    | lit s => simpa [substT, phNames] using ih
    | ph m =>
      rw [substT]
      by_cases hmn : m = n
      · rw [if_pos hmn]
        simp only [phNames]
        exact List.sublist_cons_self m (phNames t)
      · rw [if_neg hmn]
        simp only [phNames]
        exact List.Sublist.cons₂ m ih

theorem substPathParams_template (pv : String → Option String) :
    ∀ (ps : List Parameter) (t : List TmplPiece), tmplWf t = true →
      (∀ p ∈ ps, braceFreeL p.name.data = true) →
      substPathParams pv ps (flattenT t) = flattenT (substAll pv ps t) := by
  intro ps
  induction ps with
  | nil => intro t _ _; rfl
  | cons p rest ih =>
    intro t hwf hbn
    rw [substPathParams, substAll]
    cases hv : truthyOpt (pv p.name) with
    | some v =>
      simp only
      rw [replFirst_template p.name _ (hbn p (by simp)) t hwf]
      exact ih _ (substT_wf _ _ (encodeURIChars_braceFree v.data) t hwf)
        (fun q hq => hbn q (by simp [hq]))
    | none =>
      simp only
      rw [replFirst_self]
      exact ih t hwf (fun q hq => hbn q (by simp [hq]))

theorem renderT_nil_names (pv : String → Option String) :
    ∀ (t : List TmplPiece), renderT pv [] t = t := by
  intro t
  induction t with
  | nil => rfl
  | cons pc t ih =>
    cases pc with
    | lit s => simp [renderT, ih]
    | ph m => simp [renderT, ih]

theorem renderT_irrel (pv : String → Option String) (n : String) (ns : List String) :
    ∀ (t : List TmplPiece), n ∉ phNames t →
      renderT pv (n :: ns) t = renderT pv ns t := by
  intro t
  induction t with
  | nil => intro _; rfl
  | cons pc t ih =>
    intro hn
    cases pc with
    | lit s =>
      simp only [renderT]
      rw [ih (by simpa [phNames] using hn)]
    | ph m =>
      have hmn : m ≠ n := by
        intro he
        exact hn (by simp [phNames, he])
      have htl : n ∉ phNames t := by
        intro hm
        exact hn (by simp [phNames, hm])
      simp only [renderT]
      rw [ih htl]
      by_cases hm : m ∈ ns
      · rw [if_pos hm, if_pos (by simp [hm])]
      · rw [if_neg hm, if_neg (by simp [hmn, hm])]

theorem renderT_none (pv : String → Option String) (n : String) (ns : List String)
    (hv : truthyOpt (pv n) = none) :
    ∀ (t : List TmplPiece), renderT pv (n :: ns) t = renderT pv ns t := by
  intro t
  induction t with
  | nil => rfl
  | cons pc t ih =>
    cases pc with
    | lit s => simp only [renderT]; rw [ih]
    | ph m =>
      simp only [renderT]
      rw [ih]
      by_cases hmn : m = n
      · subst hmn
        simp only [List.mem_cons, true_or, if_true, hv]
        by_cases hm : m ∈ ns <;> simp [hm, hv]
      · by_cases hm : m ∈ ns
        · rw [if_pos hm, if_pos (by simp [hm])]
        · rw [if_neg hm, if_neg (by simp [hmn, hm])]

theorem renderT_subst (pv : String → Option String) (n : String) (v : String)
    (hv : truthyOpt (pv n) = some v) (ns : List String) :
    ∀ (t : List TmplPiece), (phNames t).Nodup →
      renderT pv ns (substT n (encodeURIChars v.data) t) = renderT pv (n :: ns) t := by
  intro t
  induction t with
  | nil => intro _; rfl
  | cons pc t ih =>
    intro hnd
    cases pc with
    | lit s =>
      simp only [substT, renderT]
      rw [ih (by simpa [phNames] using hnd)]
    | ph m =>
      have hnd' : (phNames t).Nodup ∧ m ∉ phNames t := by
        have : (phNames (.ph m :: t)) = m :: phNames t := rfl
        rw [this] at hnd
        exact ⟨(List.nodup_cons.mp hnd).2, (List.nodup_cons.mp hnd).1⟩
      by_cases hmn : m = n
      · subst hmn
        simp only [substT, if_pos rfl, renderT]
        have hhead : (if m ∈ m :: ns then
            match truthyOpt (pv m) with
            | some v => TmplPiece.lit (encodeURIChars v.data)
            | none => TmplPiece.ph m
          else TmplPiece.ph m) = TmplPiece.lit (encodeURIChars v.data) := by
          rw [if_pos (by simp), hv]
        rw [hhead]
        rw [renderT_irrel pv m ns t hnd'.2]
      · simp only [substT, if_neg hmn, renderT]
        rw [ih hnd'.1]
        by_cases hm : m ∈ ns
        · rw [if_pos hm, if_pos (by simp [hm])]
        · rw [if_neg hm, if_neg (by simp [hmn, hm])]

theorem substAll_render (pv : String → Option String) :
    ∀ (ps : List Parameter) (t : List TmplPiece), (phNames t).Nodup →
      substAll pv ps t = renderT pv (ps.map Parameter.name) t := by
  intro ps
  induction ps with
  | nil =>
    intro t _
    exact (renderT_nil_names pv t).symm
  | cons p rest ih =>
    intro t hnd
    rw [substAll]
    cases hv : truthyOpt (pv p.name) with
    | some v =>
      simp only
      rw [ih _ (List.Nodup.sublist (phNames_substT_sublist p.name _ t) hnd)]
      rw [renderT_subst pv p.name v hv _ t hnd]
      rfl
    | none =>
      simp only [List.map_cons]
      rw [ih t hnd]
      rw [renderT_none pv p.name _ hv t]

theorem startsWithL_iff (p : List Char) :
    ∀ (s : List Char), startsWithL p s = true ↔ p <+: s := by
  induction p with
  | nil => intro s; simp [startsWithL]
  | cons c cs ih =>
    intro s
    cases s with
    | nil => simp [startsWithL]
    | cons d ds =>
      simp [startsWithL, List.cons_prefix_cons, ih, Bool.and_eq_true, beq_iff_eq]

theorem infixL_iff (p : List Char) :
    ∀ (s : List Char), infixL p s = true ↔ p <:+: s := by
  intro s
  induction s with
  | nil =>
    simp [infixL, List.isEmpty_iff]
  | cons c cs ih =>
    simp [infixL, List.infix_cons_iff, startsWithL_iff, ih, Bool.or_eq_true]

theorem renderT_mem_lit (pv : String → Option String) (pnames : List String)
    (n : String) (v : String) (hv : truthyOpt (pv n) = some v) :
    ∀ (t : List TmplPiece), n ∈ phNames t → n ∈ pnames →
      TmplPiece.lit (encodeURIChars v.data) ∈ renderT pv pnames t := by
  intro t
  induction t with
  | nil => intro h _; simp [phNames] at h
  | cons pc t ih =>
    intro hn hp
    cases pc with
    | lit s =>
      have : n ∈ phNames t := by simpa [phNames] using hn
      exact List.mem_cons_of_mem _ (ih this hp)
    | ph m =>
      have hmem : n = m ∨ n ∈ phNames t := by
        have : phNames (.ph m :: t) = m :: phNames t := rfl
        rw [this] at hn
        simpa using hn
      rcases hmem with he | hmem2
      · subst he
        simp only [renderT, if_pos hp, hv]
        exact List.mem_cons_self _ _
      · exact List.mem_cons_of_mem _ (ih hmem2 hp)

theorem renderT_mem_ph (pv : String → Option String) (pnames : List String)
    (n : String) (hv : truthyOpt (pv n) = none) :
    ∀ (t : List TmplPiece), n ∈ phNames t →
      TmplPiece.ph n ∈ renderT pv pnames t := by
  intro t
  induction t with
  | nil => intro h; simp [phNames] at h
  | cons pc t ih =>
    intro hn
    cases pc with
    | lit s =>
      have : n ∈ phNames t := by simpa [phNames] using hn
      exact List.mem_cons_of_mem _ (ih this)
    | ph m =>
      have hmem : n = m ∨ n ∈ phNames t := by
        have : phNames (.ph m :: t) = m :: phNames t := rfl
        rw [this] at hn
        simpa using hn
      rcases hmem with he | hmem2
      · subst he
        by_cases hp : n ∈ pnames
        · simp only [renderT, if_pos hp, hv]
          exact List.mem_cons_self _ _
        · simp only [renderT, if_neg hp]
          exact List.mem_cons_self _ _
      · exact List.mem_cons_of_mem _ (ih hmem2)

theorem flattenT_cons (pc : TmplPiece) (t : List TmplPiece) :
    flattenT (pc :: t) = flatPiece pc ++ flattenT t := by
  cases pc <;> rfl

theorem piece_infix (pc : TmplPiece) :
    ∀ (t : List TmplPiece), pc ∈ t → flatPiece pc <:+: flattenT t := by
  intro t
  induction t with
  | nil => intro h; simp at h
  | cons q t ih =>
    intro hm
    rw [flattenT_cons]
    rcases List.mem_cons.mp hm with he | hmem
    · subst he
      exact (List.prefix_append _ _).isInfix
    · exact (ih hmem).trans (List.suffix_append _ _).isInfix

/-- C2: `generateCurl` is total by construction and the URL step behaves
as claimed: over any brace-clean template decomposition of
baseUrl + path whose placeholder names are distinct, the URL after path
substitution is the template with every path parameter placeholder that
has a truthy supplied value replaced by the URL-encoded value and every
other placeholder left literally in place; consequently each supplied
value appears URL-encoded in the emitted URL and each unsupplied path
parameter leaves its literal placeholder in the emitted URL. -/
theorem c2_path_substitution (e : ParsedEndpoint) (o : CurlOptions) (t : List TmplPiece)
    (hflat : (o.baseUrl ++ e.path).data = flattenT t)
    (hwf : tmplWf t = true)
    (hnodup : (phNames t).Nodup)
    (hbn : ∀ p ∈ getPathParams e, braceFreeL p.name.data = true) :
    (urlAfterPath e o).data =
      flattenT (renderT o.paramValues ((getPathParams e).map Parameter.name) t) ∧
    (∀ p ∈ getPathParams e, p.name ∈ phNames t →
      (∀ v, truthyOpt (o.paramValues p.name) = some v →
        infixL (encodeURIChars v.data) (urlWithQuery e o).data = true) ∧
      (truthyOpt (o.paramValues p.name) = none →
        infixL (placeholderOf p.name) (urlWithQuery e o).data = true)) := by
  have hrender : (urlAfterPath e o).data =
      flattenT (renderT o.paramValues ((getPathParams e).map Parameter.name) t) := by
    show substPathParams o.paramValues (getPathParams e) (o.baseUrl ++ e.path).data = _
    rw [hflat, substPathParams_template o.paramValues (getPathParams e) t hwf hbn,
      substAll_render o.paramValues (getPathParams e) t hnodup]
  refine ⟨hrender, ?_⟩
  intro p hp hpn
  have hnames : p.name ∈ (getPathParams e).map Parameter.name :=
    List.mem_map_of_mem _ hp
  have hq : (urlAfterPath e o).data <+: (urlWithQuery e o).data := by
    unfold urlWithQuery
    cases queryParts e o with
    | nil => exact List.prefix_refl _
    | cons q qs =>
      show _ <+: (urlAfterPath e o ++ "?" ++ joinL "&" (q :: qs)).data
      rw [String.data_append, String.data_append]
      exact (List.prefix_append _ _).trans (List.prefix_append _ _)
  constructor
  · intro v hv
    rw [infixL_iff]
    have hmem := renderT_mem_lit o.paramValues _ p.name v hv t hpn hnames
    have hinf := piece_infix _ _ hmem
    rw [← hrender] at hinf
    exact hinf.trans hq.isInfix
  · intro hv
    rw [infixL_iff]
    have hmem := renderT_mem_ph o.paramValues
      ((getPathParams e).map Parameter.name) p.name hv t hpn
    have hinf := piece_infix _ _ hmem
    rw [← hrender] at hinf
    exact hinf.trans hq.isInfix

/-- C2 witness: one supplied path parameter (whose value needs encoding)
and one unsupplied one, at a concrete endpoint. -/
theorem c2_path_substitution_witness :
    infixL (encodeURIChars "a b".data) (urlWithQuery c2Endpoint c2Options).data = true ∧
    infixL (placeholderOf "pid") (urlWithQuery c2Endpoint c2Options).data = true := by
  have hid : mkParam "id" "path" true ∈ getPathParams c2Endpoint := by
    show mkParam "id" "path" true ∈ [mkParam "id" "path" true, mkParam "pid" "path" true]
    exact List.mem_cons_self _ _
  have hpid : mkParam "pid" "path" true ∈ getPathParams c2Endpoint := by
    show mkParam "pid" "path" true ∈ [mkParam "id" "path" true, mkParam "pid" "path" true]
    exact List.mem_cons_of_mem _ (List.mem_cons_self _ _)
  exact ⟨((c2_path_substitution c2Endpoint c2Options c2Tmpl rfl (by decide) (by decide)
      (by decide)).2 _ hid (by decide)).1 "a b" rfl,
    ((c2_path_substitution c2Endpoint c2Options c2Tmpl rfl (by decide) (by decide)
      (by decide)).2 _ hpid (by decide)).2 rfl⟩

/- ## C9 -/

/-- C9: `generateExampleBody` returns, for an application/json media type
whose schema is object-typed with properties, the pretty-printed
(2-space indented) JSON object with one field per property whose value
prefers the property example, then its default, then the synthesized
type/format default (with the claimed table); every non-object or
schema-less body yields the literal text of an empty JSON object. -/
theorem c9_example_body (e : ParsedEndpoint) :
    (e.requestBody = none → generateExampleBody e = "\x7b\x7d") ∧
    (∀ rb, e.requestBody = some rb → rb.content = none →
      generateExampleBody e = "\x7b\x7d") ∧
    (∀ rb content, e.requestBody = some rb → rb.content = some content →
      content.lookup "application/json" = none →
      generateExampleBody e = "\x7b\x7d") ∧
    (∀ rb content mt, e.requestBody = some rb → rb.content = some content →
      content.lookup "application/json" = some mt → mt.schema = none →
      generateExampleBody e = "\x7b\x7d") ∧
    (∀ rb content mt sch, e.requestBody = some rb → rb.content = some content →
      content.lookup "application/json" = some mt → mt.schema = some sch →
      sch.type ≠ some "object" →
      generateExampleBody e = "\x7b\x7d") ∧
    (∀ rb content mt sch, e.requestBody = some rb → rb.content = some content →
      content.lookup "application/json" = some mt → mt.schema = some sch →
      sch.properties = none →
      generateExampleBody e = "\x7b\x7d") ∧
    (∀ rb content mt sch props, e.requestBody = some rb → rb.content = some content →
      content.lookup "application/json" = some mt → mt.schema = some sch →
      sch.type = some "object" → sch.properties = some props →
      generateExampleBody e =
        stringifyJson (.jobj (props.map (fun kp => (kp.1, exampleFieldValue kp.2))))) ∧
    (∀ p : Schema, ∀ v, p.exampleVal = some v → exampleFieldValue p = v) ∧
    (∀ p : Schema, ∀ v, p.exampleVal = none → p.default = some v →
      exampleFieldValue p = v) ∧
    (∀ p : Schema, p.exampleVal = none → p.default = none →
      exampleFieldValue p = getDefaultValue p.type p.format) ∧
    getDefaultValue (some "string") (some "email") = .jstr "user@example.com" ∧
    getDefaultValue (some "string") (some "date") = .jstr "2024-01-01" ∧
    getDefaultValue (some "string") (some "date-time") = .jstr "2024-01-01T00:00:00Z" ∧
    getDefaultValue (some "string") (some "uuid") =
      .jstr "00000000-0000-0000-0000-000000000000" ∧
    (∀ f, f ≠ some "email" → f ≠ some "date" → f ≠ some "date-time" →
      f ≠ some "uuid" → getDefaultValue (some "string") f = .jstr "string") ∧
    (∀ f, getDefaultValue (some "number") f = .jnum 0) ∧
    (∀ f, getDefaultValue (some "integer") f = .jnum 0) ∧
    (∀ f, getDefaultValue (some "boolean") f = .jbool true) ∧
    (∀ f, getDefaultValue (some "array") f = .jarr []) ∧
    (∀ f, getDefaultValue (some "object") f = .jobj []) ∧
    (∀ ty f, (∀ st ∈ ["string", "number", "integer", "boolean", "array", "object"],
        ty ≠ some st) → getDefaultValue ty f = .jnull) ∧
    generateExampleBody c9Endpoint =
      "\x7b\n  \"name\": \"string\",\n  \"email\": \"user@example.com\",\n  \"age\": 7,\n  \"tags\": [\n    \"x\"\n  ]\n\x7d" := by
  refine ⟨?_, ?_, ?_, ?_, ?_, ?_, ?_, ?_, ?_, ?_, rfl, rfl, rfl, rfl, ?_, ?_, ?_, ?_, ?_, ?_, ?_, ?_⟩
  · intro h; simp [generateExampleBody, h]
  · intro rb h1 h2; simp [generateExampleBody, h1, h2]
  · intro rb content h1 h2 h3; simp [generateExampleBody, h1, h2, h3]
  · intro rb content mt h1 h2 h3 h4; simp [generateExampleBody, h1, h2, h3, h4]
  · intro rb content mt sch h1 h2 h3 h4 h5
    have hb : (sch.type == some "object") = false := by
      cases hh : sch.type == some "object" with
      | false => rfl
      | true => exact absurd (by simpa using hh) h5
    simp [generateExampleBody, h1, h2, h3, h4, hb]
  · intro rb content mt sch h1 h2 h3 h4 h5
    by_cases hb : (sch.type == some "object") = true
    · simp [generateExampleBody, h1, h2, h3, h4, hb, h5]
    · simp [generateExampleBody, h1, h2, h3, h4, Bool.not_eq_true _ ▸ hb]
  · intro rb content mt sch props h1 h2 h3 h4 h5 h6
    simp [generateExampleBody, h1, h2, h3, h4, h5, h6]
  · intro p v h; simp [exampleFieldValue, h]
  · intro p v h1 h2; simp [exampleFieldValue, h1, h2]
  · intro p h1 h2; simp [exampleFieldValue, h1, h2]
  · intro f h1 h2 h3 h4
    unfold getDefaultValue
    have b1 : (f == some "email") = false := by
      cases hh : f == some "email" with
      | false => rfl
      | true => exact absurd (by simpa using hh) h1
    have b2 : (f == some "date") = false := by
      cases hh : f == some "date" with
      | false => rfl
      | true => exact absurd (by simpa using hh) h2
    have b3 : (f == some "date-time") = false := by
      cases hh : f == some "date-time" with
      | false => rfl
      | true => exact absurd (by simpa using hh) h3
    have b4 : (f == some "uuid") = false := by
      cases hh : f == some "uuid" with
      | false => rfl
      | true => exact absurd (by simpa using hh) h4
    simp [b1, b2, b3, b4]
  · intro f; rfl
  · intro f; rfl
  · intro f; rfl
  · intro f; rfl
  · intro f; rfl
  · intro ty f h
    cases ty with
    | none => rfl
    | some s =>
      have hs1 := h "string" (by simp)
      have hs2 := h "number" (by simp)
      have hs3 := h "integer" (by simp)
      have hs4 := h "boolean" (by simp)
      have hs5 := h "array" (by simp)
      have hs6 := h "object" (by simp)
      unfold getDefaultValue
      split
      · simp_all
      · simp_all
      · simp_all
      · simp_all
      · simp_all
      · simp_all
      · rfl
  · simp [generateExampleBody, c9Endpoint, mkEndpoint, c9Body, c9Schema, c9Props,
      mkPropSchema, Schema.type, Schema.properties, exampleFieldValue,
      Schema.exampleVal, Schema.default, Schema.format, getDefaultValue,
      stringifyJson, stringifyAt, stringifyFields, stringifyItems, jsonQuote,
      jIndent, joinL, jsonEscapeChar, List.lookup]
    rfl

/-- C9 witness: the object case applied at a concrete endpoint. -/
theorem c9_example_body_witness :
    generateExampleBody c9Endpoint =
      stringifyJson (.jobj (c9Props.map (fun kp => (kp.1, exampleFieldValue kp.2)))) :=
  (c9_example_body c9Endpoint).2.2.2.2.2.2.1 c9Body
    [("application/json", { schema := some c9Schema, exampleVal := none })]
    { schema := some c9Schema, exampleVal := none } c9Schema c9Props
    rfl rfl rfl rfl rfl rfl

/- ## C8: extraction and sorting -/

theorem char_toNat_inj {c d : Char} (h : c.toNat = d.toNat) : c = d :=
  Char.eq_of_val_eq (UInt32.ext h)

theorem lexCmpL_symm : ∀ (a b : List Char), lexCmpL a b = (lexCmpL b a).swap := by
  intro a
  induction a with
  | nil => intro b; cases b <;> rfl
  | cons x as ih =>
    intro b
    cases b with
    | nil => rfl
    | cons y bs =>
      rcases Nat.lt_trichotomy x.toNat y.toNat with h | h | h
      · have h1 : ¬ y.toNat < x.toNat := by omega
        simp [lexCmpL, h, h1, Ordering.swap]
      · have h1 : ¬ x.toNat < y.toNat := by omega
        have h2 : ¬ y.toNat < x.toNat := by omega
        simp only [lexCmpL, h1, h2, if_false]
        exact ih bs
      · have h1 : ¬ x.toNat < y.toNat := by omega
        simp [lexCmpL, h, h1, Ordering.swap]

theorem lexCmpL_eq_iff : ∀ (a b : List Char), lexCmpL a b = .eq ↔ a = b := by
  intro a
  induction a with
  | nil =>
    intro b
    cases b with
    | nil => simp [lexCmpL]
    | cons y bs => simp [lexCmpL]
  | cons x as ih =>
    intro b
    cases b with
    | nil => simp [lexCmpL]
    | cons y bs =>
      rcases Nat.lt_trichotomy x.toNat y.toNat with h | h | h
      · have hne : x ≠ y := by
          intro he; subst he; omega
        simp [lexCmpL, h, hne]
      · have h1 : ¬ x.toNat < y.toNat := by omega
        have h2 : ¬ y.toNat < x.toNat := by omega
        have hxy : x = y := char_toNat_inj h
        subst hxy
        simp [lexCmpL, h1, ih bs]
      · have hne : x ≠ y := by
          intro he; subst he; omega
        have h1 : ¬ x.toNat < y.toNat := by omega
        simp [lexCmpL, h, h1, hne]

theorem lexCmpL_lt_trans :
    ∀ (a b c : List Char), lexCmpL a b = .lt → lexCmpL b c = .lt → lexCmpL a c = .lt := by
  intro a
  induction a with
  | nil =>
    intro b c hab hbc
    cases c with
    | nil =>
      cases b with
      | nil => cases hab
      | cons y bs => cases hbc
    | cons z cs => rfl
  | cons x as ih =>
    intro b c hab hbc
    cases b with
    | nil => cases hab
    | cons y bs =>
      cases c with
      | nil => cases hbc
      | cons z cs =>
        rcases Nat.lt_trichotomy x.toNat y.toNat with h1 | h1 | h1
        · rcases Nat.lt_trichotomy y.toNat z.toNat with h2 | h2 | h2
          · simp [lexCmpL, show x.toNat < z.toNat by omega]
          · simp [lexCmpL, show x.toNat < z.toNat by omega]
          · exfalso
            have ha : ¬ y.toNat < z.toNat := by omega
            simp [lexCmpL, ha, h2] at hbc
        · rcases Nat.lt_trichotomy y.toNat z.toNat with h2 | h2 | h2
          · simp [lexCmpL, show x.toNat < z.toNat by omega]
          · have e1 : ¬ x.toNat < y.toNat := by omega
            have e2 : ¬ y.toNat < x.toNat := by omega
            have e3 : ¬ y.toNat < z.toNat := by omega
            have e4 : ¬ z.toNat < y.toNat := by omega
            have e5 : ¬ x.toNat < z.toNat := by omega
            have e6 : ¬ z.toNat < x.toNat := by omega
            simp only [lexCmpL, e1, e2, if_false] at hab
            simp only [lexCmpL, e3, e4, if_false] at hbc
            simp only [lexCmpL, e5, e6, if_false]
            exact ih bs cs hab hbc
          · exfalso
            have ha : ¬ y.toNat < z.toNat := by omega
            simp [lexCmpL, ha, h2] at hbc
        · exfalso
          have ha : ¬ x.toNat < y.toNat := by omega
          simp [lexCmpL, ha, h1] at hab

theorem lexCmpStr_collator : IsCollator lexCmpStr := by
  refine ⟨?_, ?_, ?_⟩
  · intro a b
    exact lexCmpL_symm a.data b.data
  · intro a b c hab hbc
    exact lexCmpL_lt_trans a.data b.data c.data hab hbc
  · intro a b c hab
    have : a.data = b.data := (lexCmpL_eq_iff a.data b.data).mp hab
    unfold lexCmpStr
    rw [this]

theorem collator_eq_right {cmp : String → String → Ordering} (hc : IsCollator cmp)
    {y z : String} (h : cmp y z = .eq) (x : String) : cmp x z = cmp x y := by
  have h1 : cmp z y = .eq := by
    have hs := hc.symm y z
    rw [h] at hs
    cases hz : cmp z y with
    | lt => rw [hz] at hs; cases hs
    | gt => rw [hz] at hs; cases hs
    | eq => rfl
  have h2 := hc.eq_compat z y x h1
  have h3 := hc.symm x z
  have h4 := hc.symm x y
  rw [h3, h4, h2]

theorem collator_le_trans {cmp : String → String → Ordering} (hc : IsCollator cmp)
    {x y z : String} (hxy : cmp x y ≠ .gt) (hyz : cmp y z ≠ .gt) : cmp x z ≠ .gt := by
  cases h1 : cmp x y with
  | gt => exact absurd h1 hxy
  | lt =>
    cases h2 : cmp y z with
    | gt => exact absurd h2 hyz
    | lt =>
      rw [hc.lt_trans x y z h1 h2]
      intro hx; cases hx
    | eq =>
      rw [collator_eq_right hc h2 x, h1]
      intro hx; cases hx
  | eq =>
    rw [hc.eq_compat x y z h1]
    exact hyz

theorem endpointCompare_symm {cmp : String → String → Ordering} (hc : IsCollator cmp)
    (a b : ParsedEndpoint) :
    endpointCompare cmp a b = (endpointCompare cmp b a).swap := by
  unfold endpointCompare
  have hp := hc.symm a.path b.path
  have hm := hc.symm (methodStr a.method) (methodStr b.method)
  cases h : cmp b.path a.path with
  | lt => rw [hp, h]; rfl
  | gt => rw [hp, h]; rfl
  | eq =>
    rw [hp, h]
    show cmp (methodStr a.method) (methodStr b.method) = _
    rw [hm]

theorem endpointLe_trans {cmp : String → String → Ordering} (hc : IsCollator cmp)
    (a b c : ParsedEndpoint)
    (hab : endpointCompare cmp a b ≠ .gt) (hbc : endpointCompare cmp b c ≠ .gt) :
    endpointCompare cmp a c ≠ .gt := by
  unfold endpointCompare at hab hbc ⊢
  cases h1 : cmp a.path b.path with
  | gt => rw [h1] at hab; exact absurd rfl hab
  | lt =>
    cases h2 : cmp b.path c.path with
    | gt => rw [h2] at hbc; exact absurd rfl hbc
    | lt =>
      rw [hc.lt_trans _ _ _ h1 h2]
      intro hx; cases hx
    | eq =>
      rw [collator_eq_right hc h2 a.path, h1]
      intro hx; cases hx
  | eq =>
    rw [h1] at hab
    cases h2 : cmp b.path c.path with
    | gt => rw [h2] at hbc; exact absurd rfl hbc
    | lt =>
      rw [hc.eq_compat _ _ _ h1, h2]
      intro hx; cases hx
    | eq =>
      rw [h2] at hbc
      rw [hc.eq_compat _ _ _ h1, h2]
      exact collator_le_trans hc hab hbc

theorem filterMap_pathItem (p : String) (it : PathItem) :
    (pathItemMethods it).filterMap (fun mo => mo.2.map (parseOperation p mo.1)) =
      specEndpointsOfItem p it := by
  obtain ⟨g, po, pu, pa, de, op, he⟩ := it
  cases g <;> cases po <;> cases pu <;> cases pa <;> cases de <;> cases op <;> cases he <;> rfl

theorem length_specEndpointsOfItem (p : String) (it : PathItem) :
    (specEndpointsOfItem p it).length = definedMethodCount it := by
  obtain ⟨g, po, pu, pa, de, op, he⟩ := it
  cases g <;> cases po <;> cases pu <;> cases pa <;> cases de <;> cases op <;> cases he <;> rfl

theorem collectEndpoints_eq (paths : List (String × PathItem)) :
    collectEndpoints paths = paths.flatMap (fun kv => specEndpointsOfItem kv.1 kv.2) := by
  unfold collectEndpoints
  have hf : (fun kv : String × PathItem =>
      (pathItemMethods kv.2).filterMap (fun mo => mo.2.map (parseOperation kv.1 mo.1))) =
      (fun kv => specEndpointsOfItem kv.1 kv.2) :=
    funext (fun kv => filterMap_pathItem kv.1 kv.2)
  rw [hf]

theorem methodRank_le_iff (m1 m2 : HttpMethod) :
    (lexCmpStr (methodStr m1) (methodStr m2) ≠ .gt) ↔ methodRank m1 ≤ methodRank m2 := by
  cases m1 <;> cases m2 <;> simp [lexCmpStr, methodStr, methodRank, lexCmpL]

/-- C8: `parseEndpoints` yields exactly one endpoint per (path, method)
pair defined over the seven method keys (the count is the total number
of defined method keys), and the sequence is sorted primarily by path
under the locale collation and secondarily by the uppercase method
string, which on the seven verbs is the DELETE < GET < HEAD < OPTIONS <
PATCH < POST < PUT rank order. -/
theorem c8_extraction_sorted (spec : OpenAPISpec) (cmp : String → String → Ordering)
    (hc : IsCollator cmp)
    (hm : ∀ m1 m2 : HttpMethod, cmp (methodStr m1) (methodStr m2) =
      lexCmpStr (methodStr m1) (methodStr m2)) :
    (parseEndpoints cmp spec).length = totalDefinedMethods spec ∧
    (parseEndpoints cmp spec).Perm (specExtractedEndpoints spec) ∧
    (parseEndpoints cmp spec).Pairwise (fun a b =>
      cmp a.path b.path = .lt ∨
      (cmp a.path b.path = .eq ∧ methodRank a.method ≤ methodRank b.method)) := by
  obtain ⟨ov, sv, pathsOpt⟩ := spec
  cases pathsOpt with
  | none =>
    refine ⟨rfl, ?_, ?_⟩
    · exact List.Perm.refl _
    · exact List.Pairwise.nil
  | some paths =>
    have hperm : (parseEndpoints cmp ⟨ov, sv, some paths⟩).Perm
        (specExtractedEndpoints ⟨ov, sv, some paths⟩) := by
      show ((collectEndpoints paths).mergeSort
          (fun a b => !(endpointCompare cmp a b == .gt))).Perm
        (paths.flatMap (fun kv => specEndpointsOfItem kv.1 kv.2))
      rw [collectEndpoints_eq]
      exact List.mergeSort_perm _ _
    refine ⟨?_, hperm, ?_⟩
    · rw [hperm.length_eq]
      show (paths.flatMap (fun kv => specEndpointsOfItem kv.1 kv.2)).length = _
      rw [List.length_flatMap]
      unfold totalDefinedMethods
      simp only
      congr 1
      apply List.map_congr_left
      intro kv _
      exact length_specEndpointsOfItem kv.1 kv.2
    · have hofb : ∀ (x : Ordering), (!(x == Ordering.gt)) = true → x ≠ .gt := by
        intro x h he
        subst he
        exact absurd h (by decide)
      have htob : ∀ (x : Ordering), x ≠ .gt → (!(x == Ordering.gt)) = true := by
        intro x h
        cases x with
        | lt => rfl
        | eq => rfl
        | gt => exact absurd rfl h
      have htrans : ∀ a b c : ParsedEndpoint,
          (!(endpointCompare cmp a b == Ordering.gt)) = true →
          (!(endpointCompare cmp b c == Ordering.gt)) = true →
          (!(endpointCompare cmp a c == Ordering.gt)) = true := by
        intro a b c h1 h2
        exact htob _ (endpointLe_trans hc a b c (hofb _ h1) (hofb _ h2))
      have htotal : ∀ a b : ParsedEndpoint,
          ((!(endpointCompare cmp a b == Ordering.gt)) ||
           (!(endpointCompare cmp b a == Ordering.gt))) = true := by
        intro a b
        cases h : endpointCompare cmp b a with
        | gt =>
          have hs := endpointCompare_symm hc a b
          rw [h] at hs
          have hlt : endpointCompare cmp a b = Ordering.lt := hs
          rw [hlt]
          exact Bool.true_or _
        | lt => exact Bool.or_true _
        | eq => exact Bool.or_true _
      have hsorted := @List.sorted_mergeSort ParsedEndpoint
        (fun a b : ParsedEndpoint => !(endpointCompare cmp a b == .gt))
        htrans htotal (collectEndpoints paths)
      show List.Pairwise _ ((collectEndpoints paths).mergeSort _)
      refine hsorted.imp ?_
      intro a b hab0
      have hab : endpointCompare cmp a b ≠ .gt := hofb _ hab0
      unfold endpointCompare at hab
      cases hp : cmp a.path b.path with
      | gt => rw [hp] at hab; exact absurd rfl hab
      | lt => exact Or.inl rfl
      | eq =>
        rw [hp] at hab
        refine Or.inr ⟨rfl, ?_⟩
        rw [hm a.method b.method] at hab
        exact (methodRank_le_iff a.method b.method).mp hab

/-- C8 witness: the code-point collation on a concrete two-path spec. -/
theorem c8_extraction_sorted_witness :
    (parseEndpoints lexCmpStr c8Spec).length = totalDefinedMethods c8Spec ∧
    (parseEndpoints lexCmpStr c8Spec).Perm (specExtractedEndpoints c8Spec) ∧
    (parseEndpoints lexCmpStr c8Spec).Pairwise (fun a b =>
      lexCmpStr a.path b.path = .lt ∨
      (lexCmpStr a.path b.path = .eq ∧ methodRank a.method ≤ methodRank b.method)) :=
  c8_extraction_sorted c8Spec lexCmpStr lexCmpStr_collator (fun _ _ => rfl)

end OpenApiFetcher
